import Mathlib

/-!
Verification of the poker hand-selection and ranking-classification engine
(package `hand` plus its ranking tables).  The Go sources under `pkg/hand`
and the ranking helpers are translated into executable Lean definitions;
code paths that panic in Go (out-of-range indexing, the unreachable branch
of `handForFiveCards`) are modelled by `Option`, with `none` standing for a
runtime panic.
-/

namespace hand

/-- The thirteen card ranks.  The underlying numbering mirrors the Go
enumeration (`Two = 0` up to `Ace = 12`), which the source relies on in
`hasStraight` (`lastIndex == index+1`) and in `CompareTo`
(`int(hIndex) - int(oIndex)`). -/
inductive Rank where
  | two | three | four | five | six | seven | eight | nine | ten
  | jack | queen | king | ace
deriving DecidableEq, Fintype, Repr

/-- Modelled from the spec: the ace-high ordinal of a rank (`ordinalHigh`),
also the numeric value of the Go `Rank` enumeration. -/
def Rank.highOrd : Rank → Nat
  | .two => 0 | .three => 1 | .four => 2 | .five => 3 | .six => 4
  | .seven => 5 | .eight => 6 | .nine => 7 | .ten => 8 | .jack => 9
  | .queen => 10 | .king => 11 | .ace => 12

/-- Modelled from the spec: the ace-low ordinal of a rank (`ordinalLow`):
Ace is least, every other rank keeps its relative position. -/
def Rank.lowOrd : Rank → Nat
  | .ace => 0 | .two => 1 | .three => 2 | .four => 3 | .five => 4
  | .six => 5 | .seven => 6 | .eight => 7 | .nine => 8 | .ten => 9
  | .jack => 10 | .queen => 11 | .king => 12

/-- The integer value of a rank as used by Go casts such as
`int(hIndex) - int(oIndex)`. -/
def Rank.val (r : Rank) : Int := r.highOrd

/-- Modelled from the spec: the singular display name of a rank
(spec section 3, example "king"). -/
def Rank.singularName : Rank → String
  | .two => "two" | .three => "three" | .four => "four" | .five => "five"
  | .six => "six" | .seven => "seven" | .eight => "eight" | .nine => "nine"
  | .ten => "ten" | .jack => "jack" | .queen => "queen" | .king => "king"
  | .ace => "ace"

/-- Modelled from the spec: the plural display name of a rank
(spec section 3, example "kings"; the source doc comment shows "sixes"). -/
def Rank.pluralName : Rank → String
  | .six => "sixes"
  | r => r.singularName ++ "s"

/-- The four suits; only equality matters (flush detection). -/
inductive Suit where
  | spades | hearts | diamonds | clubs
deriving DecidableEq, Fintype, Repr

/-- A playing card: a rank and a suit. -/
structure Card where
  rank : Rank
  suit : Suit
deriving DecidableEq, Repr

instance : Inhabited Card := ⟨⟨.two, .spades⟩⟩

/-- `Ranking` is the Go `int`-typed tier value (1 weakest .. 10 strongest). -/
abbrev Ranking := Int

/-- `Sorting` is the Go `int`-typed sorting mode. -/
abbrev Sorting := Int

/-- `SortingHigh` selects the "high hand" (Go constant value 1). -/
def SortingHigh : Sorting := 1

/-- `SortingLow` selects the "low hand" (Go constant value 2). -/
def SortingLow : Sorting := 2

/-- `Ordering` is the Go `int`-typed output ordering of `Sort`. -/
abbrev Ordering := Int

/-- Ascending order (Go constant value 1). -/
def ASC : Ordering := 1

/-- Descending order (Go constant value 2). -/
def DESC : Ordering := 2

/-- The deck variant.  The Go zero value of `GameType` selects the standard
ranking table (the `default` branch of `getRankingsByType` and of the switch
in `formCards` both fall back to the standard behaviour), so the zero value
is modelled as `standard`. -/
inductive GameType where
  | standard | shortDeck
deriving DecidableEq, Repr

/-- The configuration record of `hand.Config`; defaults are the Go zero
values produced by `&Config{}` in `New`. -/
structure Config where
  sorting : Sorting := 0
  ignoreStraights : Bool := false
  ignoreFlushes : Bool := false
  aceIsLow : Bool := false
  gameType : GameType := .standard
deriving DecidableEq, Repr

/-- The `Low` configuration option. -/
def Low (c : Config) : Config := { c with sorting := SortingLow }

/-- The `AceToFiveLow` configuration option. -/
def AceToFiveLow (c : Config) : Config :=
  { c with sorting := SortingLow, aceIsLow := true,
           ignoreStraights := true, ignoreFlushes := true }

/-- The `ShortDeck` configuration option. -/
def ShortDeck (c : Config) : Config := { c with gameType := .shortDeck }

/-- A classified hand: tier, canonical five-card arrangement, description,
and the configuration that produced it. -/
structure Hand where
  ranking : Ranking
  cards : List Card
  description : String
  config : Config
deriving DecidableEq, Repr

/-- `cardsForRank` collects, in order, the cards of the given rank. -/
def cardsForRank (cards : List Card) (r : Rank) : List Card :=
  cards.filter (fun c => c.rank == r)

/-- `hasFlush`: five cards sharing one suit; false for any other length. -/
def hasFlush (cards : List Card) : Bool :=
  if cards.length ≠ 5 then false
  else cards.all (fun c => c.suit == (cards.getD 0 default).suit)

/-- The consecutive-rank loop of `hasStraight`: each card's rank value is one
less than its predecessor's. -/
def descRun : Int → List Card → Bool
  | _, [] => true
  | last, c :: rest => (last == c.rank.val + 1) && descRun c.rank.val rest

/-- `hasLowStraight`: the wheel Five-Four-Three-Two-Ace (already rotated). -/
def hasLowStraight (cards : List Card) : Bool :=
  match cards with
  | c0 :: c1 :: c2 :: c3 :: c4 :: _ =>
    c0.rank == Rank.five && c1.rank == Rank.four && c2.rank == Rank.three &&
      c3.rank == Rank.two && c4.rank == Rank.ace
  | _ => false

/-- `hasStraight`: five strictly consecutive ranks, or the wheel; false for
any other length. -/
def hasStraight (cards : List Card) : Bool :=
  if cards.length ≠ 5 then false
  else
    (descRun (cards.getD 0 default).rank.val (cards.drop 1)) || hasLowStraight cards

/-- `hasLowSDStraight` indexes `cards[0]` .. `cards[4]` without a length
check; Go's short-circuit `&&` reads an index only when the previous
comparisons succeeded, and an out-of-range read panics (`none`). -/
def hasLowSDStraight (cards : List Card) : Option Bool :=
  match cards.get? 0 with
  | none => none
  | some c0 =>
    if c0.rank ≠ .ace then some false
    else match cards.get? 1 with
      | none => none
      | some c1 =>
        if c1.rank ≠ .nine then some false
        else match cards.get? 2 with
          | none => none
          | some c2 =>
            if c2.rank ≠ .eight then some false
            else match cards.get? 3 with
              | none => none
              | some c3 =>
                if c3.rank ≠ .seven then some false
                else match cards.get? 4 with
                  | none => none
                  | some c4 => some (c4.rank == .six)

/-- `hasStraightInShortDeck`: `hasStraight(cards) || hasLowSDStraight(cards)`
with Go's short-circuit evaluation. -/
def hasStraightInShortDeck (cards : List Card) : Option Bool :=
  if hasStraight cards then some true else hasLowSDStraight cards

/-- The loop body of `hasPairs`, iterating `i` from 0 while the remaining
fuel counts down from 5.  At the first index at or beyond the number of
cards the Go loop returns `num == 1` immediately. -/
def hasPairsGo (cards : List Card) (pairNums : List Nat) : Nat → Nat → Bool
  | 0, _ => true
  | Nat.succ fuel, i =>
    let num := pairNums.getD i 0
    if cards.length ≤ i then num == 1
    else if num == (cardsForRank cards (cards.getD i default).rank).length then
      hasPairsGo cards pairNums fuel (i + 1)
    else false

/-- `hasPairs`: the positional pair-pattern test of the ranking tables. -/
def hasPairs (cards : List Card) (pairNums : List Nat) : Bool :=
  hasPairsGo cards pairNums 5 0

/-- A classification rule: tier, validity predicate, description generator.
Predicates and description generators return `Option` because some of them
index into the card list without bounds checks (a Go panic is `none`). -/
structure ranking where
  r : Ranking
  vFunc : List Card → Config → Option Bool
  dFunc : List Card → Option String

/-- `NewRanking` packs a rule. -/
def NewRanking (r : Ranking) (vFunc : List Card → Config → Option Bool)
    (dFunc : List Card → Option String) : ranking :=
  ⟨r, vFunc, dFunc⟩

/-- Standard tier constants (Go `iota + 1`). -/
def StdHighCard : Ranking := 1

/-- Standard pair tier. -/
def StdPair : Ranking := 2

/-- Standard two-pair tier. -/
def StdTwoPair : Ranking := 3

/-- Standard three-of-a-kind tier. -/
def StdThreeOfAKind : Ranking := 4

/-- Standard straight tier. -/
def StdStraight : Ranking := 5

/-- Standard flush tier. -/
def StdFlush : Ranking := 6

/-- Standard full-house tier. -/
def StdFullHouse : Ranking := 7

/-- Standard four-of-a-kind tier. -/
def StdFourOfAKind : Ranking := 8

/-- Standard straight-flush tier. -/
def StdStraightFlush : Ranking := 9

/-- Standard royal-flush tier. -/
def StdRoyalFlush : Ranking := 10

/-- Short-deck tier constants (Go `iota + 1`): note `SDFullHouse = 6` comes
before `SDFlush = 7` in the constant block. -/
def SDHighCard : Ranking := 1

/-- Short-deck pair tier. -/
def SDPair : Ranking := 2

/-- Short-deck two-pair tier. -/
def SDTwoPair : Ranking := 3

/-- Short-deck three-of-a-kind tier. -/
def SDThreeOfAKind : Ranking := 4

/-- Short-deck straight tier. -/
def SDStraight : Ranking := 5

/-- Short-deck full-house tier. -/
def SDFullHouse : Ranking := 6

/-- Short-deck flush tier. -/
def SDFlush : Ranking := 7

/-- Short-deck four-of-a-kind tier. -/
def SDFourOfAKind : Ranking := 8

/-- Short-deck straight-flush tier. -/
def SDStraightFlush : Ranking := 9

/-- Short-deck royal-flush tier. -/
def SDRoyalFlush : Ranking := 10

/-- `stdHighCard` rule. -/
def stdHighCard : ranking :=
  NewRanking StdHighCard
    (fun cards c =>
      let flush := hasFlush cards
      let straight := hasStraight cards
      let pairs := hasPairs cards [1, 1, 1, 1, 1]
      let pairs := if !c.ignoreStraights then pairs && !straight else pairs
      let pairs := if !c.ignoreFlushes then pairs && !flush else pairs
      some pairs)
    (fun cards =>
      (cards.get? 0).map (fun c0 =>
        "high card " ++ c0.rank.singularName ++ " high"))

/-- `stdPair` rule. -/
def stdPair : ranking :=
  NewRanking StdPair
    (fun cards _ => some (hasPairs cards [2, 2, 1, 1, 1]))
    (fun cards =>
      (cards.get? 0).map (fun c0 => "pair of " ++ c0.rank.pluralName))

/-- `stdTwoPair` rule. -/
def stdTwoPair : ranking :=
  NewRanking StdTwoPair
    (fun cards _ => some (hasPairs cards [2, 2, 2, 2, 1]))
    (fun cards => do
      let c0 ← cards.get? 0
      let c2 ← cards.get? 2
      return "two pair " ++ c0.rank.pluralName ++ " and " ++ c2.rank.pluralName)

/-- `stdThreeOfAKind` rule. -/
def stdThreeOfAKind : ranking :=
  NewRanking StdThreeOfAKind
    (fun cards _ => some (hasPairs cards [3, 3, 3, 1, 1]))
    (fun cards =>
      (cards.get? 0).map (fun c0 => "three of a kind " ++ c0.rank.pluralName))

/-- `stdStraight` rule. -/
def stdStraight : ranking :=
  NewRanking StdStraight
    (fun cards c =>
      if c.ignoreStraights then some false
      else some (!hasFlush cards && hasStraight cards))
    (fun cards =>
      (cards.get? 0).map (fun c0 =>
        "straight " ++ c0.rank.singularName ++ " high"))

/-- `stdFlush` rule. -/
def stdFlush : ranking :=
  NewRanking StdFlush
    (fun cards c =>
      if c.ignoreFlushes then some false
      else some (hasFlush cards && !hasStraight cards))
    (fun cards =>
      (cards.get? 0).map (fun c0 =>
        "flush " ++ c0.rank.singularName ++ " high"))

/-- `stdFullHouse` rule. -/
def stdFullHouse : ranking :=
  NewRanking StdFullHouse
    (fun cards _ => some (hasPairs cards [3, 3, 3, 2, 2]))
    (fun cards => do
      let c0 ← cards.get? 0
      let c3 ← cards.get? 3
      return "full house " ++ c0.rank.pluralName ++ " full of " ++ c3.rank.pluralName)

/-- `stdFourOfAKind` rule. -/
def stdFourOfAKind : ranking :=
  NewRanking StdFourOfAKind
    (fun cards _ => some (hasPairs cards [4, 4, 4, 4, 1]))
    (fun cards =>
      (cards.get? 0).map (fun c0 => "four of a kind " ++ c0.rank.pluralName))

/-- `stdStraightFlush` rule; the Go code reads `cards[0]` after computing
flush and straight. -/
def stdStraightFlush : ranking :=
  NewRanking StdStraightFlush
    (fun cards c =>
      if c.ignoreStraights || c.ignoreFlushes then some false
      else
        let flush := hasFlush cards
        let straight := hasStraight cards
        (cards.get? 0).map (fun c0 =>
          !(c0.rank == Rank.ace) && flush && straight))
    (fun cards =>
      (cards.get? 0).map (fun c0 =>
        "straight flush " ++ c0.rank.singularName ++ " high"))

/-- `stdRoyalFlush` rule. -/
def stdRoyalFlush : ranking :=
  NewRanking StdRoyalFlush
    (fun cards c =>
      if c.ignoreStraights || c.ignoreFlushes then some false
      else
        let flush := hasFlush cards
        let straight := hasStraight cards
        (cards.get? 0).map (fun c0 =>
          (c0.rank == Rank.ace) && flush && straight))
    (fun _ => some "royal flush")

/-- `sdHighCard` rule; `hasStraightInShortDeck` is evaluated eagerly, so its
panic propagates even when the pair test fails. -/
def sdHighCard : ranking :=
  NewRanking SDHighCard
    (fun cards c =>
      (hasStraightInShortDeck cards).map (fun straight =>
        let flush := hasFlush cards
        let pairs := hasPairs cards [1, 1, 1, 1, 1]
        let pairs := if !c.ignoreStraights then pairs && !straight else pairs
        let pairs := if !c.ignoreFlushes then pairs && !flush else pairs
        pairs))
    (fun cards =>
      (cards.get? 0).map (fun c0 =>
        "high card " ++ c0.rank.singularName ++ " high"))

/-- `sdPair` rule. -/
def sdPair : ranking :=
  NewRanking SDPair
    (fun cards _ => some (hasPairs cards [2, 2, 1, 1, 1]))
    (fun cards =>
      (cards.get? 0).map (fun c0 => "pair of " ++ c0.rank.pluralName))

/-- `sdTwoPair` rule. -/
def sdTwoPair : ranking :=
  NewRanking SDTwoPair
    (fun cards _ => some (hasPairs cards [2, 2, 2, 2, 1]))
    (fun cards => do
      let c0 ← cards.get? 0
      let c2 ← cards.get? 2
      return "two pair " ++ c0.rank.pluralName ++ " and " ++ c2.rank.pluralName)

/-- `sdThreeOfAKind` rule. -/
def sdThreeOfAKind : ranking :=
  NewRanking SDThreeOfAKind
    (fun cards _ => some (hasPairs cards [3, 3, 3, 1, 1]))
    (fun cards =>
      (cards.get? 0).map (fun c0 => "three of a kind " ++ c0.rank.pluralName))

/-- `sdStraight` rule. -/
def sdStraight : ranking :=
  NewRanking SDStraight
    (fun cards c =>
      if c.ignoreStraights then some false
      else
        (hasStraightInShortDeck cards).map (fun straight =>
          !hasFlush cards && straight))
    (fun cards =>
      (cards.get? 0).map (fun c0 =>
        "straight " ++ c0.rank.singularName ++ " high"))

/-- `sdFlush` rule. -/
def sdFlush : ranking :=
  NewRanking SDFlush
    (fun cards c =>
      if c.ignoreFlushes then some false
      else
        (hasStraightInShortDeck cards).map (fun straight =>
          hasFlush cards && !straight))
    (fun cards =>
      (cards.get? 0).map (fun c0 =>
        "flush " ++ c0.rank.singularName ++ " high"))

/-- `sdFullHouse` rule. -/
def sdFullHouse : ranking :=
  NewRanking SDFullHouse
    (fun cards _ => some (hasPairs cards [3, 3, 3, 2, 2]))
    (fun cards => do
      let c0 ← cards.get? 0
      let c3 ← cards.get? 3
      return "full house " ++ c0.rank.pluralName ++ " full of " ++ c3.rank.pluralName)

/-- `sdFourOfAKind` rule. -/
def sdFourOfAKind : ranking :=
  NewRanking SDFourOfAKind
    (fun cards _ => some (hasPairs cards [4, 4, 4, 4, 1]))
    (fun cards =>
      (cards.get? 0).map (fun c0 => "four of a kind " ++ c0.rank.pluralName))

/-- `sdStraightFlush` rule. -/
def sdStraightFlush : ranking :=
  NewRanking SDStraightFlush
    (fun cards c =>
      if c.ignoreStraights || c.ignoreFlushes then some false
      else do
        let straight ← hasStraightInShortDeck cards
        let c0 ← cards.get? 0
        return !(c0.rank == Rank.ace) && hasFlush cards && straight)
    (fun cards =>
      (cards.get? 0).map (fun c0 =>
        "straight flush " ++ c0.rank.singularName ++ " high"))

/-- `sdRoyalFlush` rule. -/
def sdRoyalFlush : ranking :=
  NewRanking SDRoyalFlush
    (fun cards c =>
      if c.ignoreStraights || c.ignoreFlushes then some false
      else do
        let straight ← hasStraightInShortDeck cards
        let c0 ← cards.get? 0
        return (c0.rank == Rank.ace) && hasFlush cards && straight)
    (fun _ => some "royal flush")

/-- `getRankingsByType`: the ordered rule table for a deck variant; the
default branch also yields the standard table. -/
def getRankingsByType : GameType → List ranking
  | .shortDeck =>
    [sdHighCard, sdPair, sdTwoPair, sdThreeOfAKind, sdStraight, sdFlush,
     sdFullHouse, sdFourOfAKind, sdStraightFlush, sdRoyalFlush]
  | .standard =>
    [stdHighCard, stdPair, stdTwoPair, stdThreeOfAKind, stdStraight, stdFlush,
     stdFullHouse, stdFourOfAKind, stdStraightFlush, stdRoyalFlush]

/-- Stable descending insertion by a numeric key: the new element goes in
front of the first existing element whose key is not larger.  Go's
`sort.Sort` falls back to a stable insertion sort below twelve elements, the
only regime `formCards` exercises (at most five cards; the thirteen ranks
have pairwise distinct keys, so tie order is irrelevant there). -/
def insertDescBy (key : α → Nat) (x : α) : List α → List α
  | [] => [x]
  | y :: ys => if key x < key y then y :: insertDescBy key x ys else x :: y :: ys

/-- Descending sort by a numeric key, stable. -/
def sortDescBy (key : α → Nat) (l : List α) : List α :=
  l.foldr (insertDescBy key) []

/-- Modelled from the spec: `allRanks` lists the thirteen ranks. -/
def allRanks : List Rank :=
  [.two, .three, .four, .five, .six, .seven, .eight, .nine, .ten,
   .jack, .queen, .king, .ace]

/-- The active rank ordering: ace-low ordinals when `aceIsLow`, else
ace-high ordinals (the comparators `byAceLow` / `byAceHigh`). -/
def rankOrd (aceIsLow : Bool) : Rank → Nat :=
  if aceIsLow then Rank.lowOrd else Rank.highOrd

/-- `formLowStraight`: rotate the Ace of a wheel to the last position. -/
def formLowStraight (cards : List Card) : List Card :=
  match cards with
  | c0 :: c1 :: c2 :: c3 :: c4 :: _ =>
    if c0.rank == Rank.ace && c1.rank == Rank.five && c2.rank == Rank.four &&
        c3.rank == Rank.three && c4.rank == Rank.two then
      [c1, c2, c3, c4, c0]
    else cards
  | _ => cards

/-- `formLowSDStraight`: rotate the Ace of the short-deck low straight. -/
def formLowSDStraight (cards : List Card) : List Card :=
  match cards with
  | c0 :: c1 :: c2 :: c3 :: c4 :: _ =>
    if c0.rank == Rank.ace && c1.rank == Rank.nine && c2.rank == Rank.eight &&
        c3.rank == Rank.seven && c4.rank == Rank.six then
      [c1, c2, c3, c4, c0]
    else cards
  | _ => cards

/-- The frequency-grouping stage of `formCards`: for group sizes 4 down
to 1, and ranks in descending active order, emit the cards of every rank
whose multiplicity equals the group size. -/
def formGroups (sorted : List Card) (ranks : List Rank) : List Card :=
  ([4, 3, 2, 1] : List Nat).flatMap (fun i =>
    ranks.flatMap (fun r =>
      let rCards := cardsForRank sorted r
      if rCards.length = i then rCards else []))

/-- `formCards`: canonical arrangement — sort descending under the active
ace ordering, group by rank frequency, then rotate a low straight. -/
def formCards (cards : List Card) (c : Config) : List Card :=
  let key := fun card : Card => rankOrd c.aceIsLow card.rank
  let sorted := sortDescBy key cards
  let ranks := sortDescBy (rankOrd c.aceIsLow) allRanks
  let formed := formGroups sorted ranks
  match c.gameType with
  | .shortDeck => formLowSDStraight formed
  | .standard => formLowStraight formed

/-- The rule scan of `handForFiveCards`; an exhausted list is the Go
`panic("unreachable")`, and a panic inside a predicate or description
generator also yields `none`. -/
def scanRules (cards : List Card) (c : Config) : List ranking → Option Hand
  | [] => none
  | r :: rest =>
    match r.vFunc cards c with
    | none => none
    | some true =>
      match r.dFunc cards with
      | some d => some { ranking := r.r, cards := cards, description := d, config := c }
      | none => none
    | some false => scanRules cards c rest

/-- `handForFiveCards`: arrange the cards canonically and return the first
matching rule's hand. -/
def handForFiveCards (cards : List Card) (c : Config) : Option Hand :=
  let cards := formCards cards c
  scanRules cards c (getRankingsByType c.gameType)

/-- Modelled from the spec: `util.Combinations(n, k)` enumerates every
`k`-element combination of the indices `0 .. n-1` exactly once (the spec
notes the enumeration order does not affect the result). -/
def Combinations (n k : Nat) : List (List Nat) :=
  List.sublistsLen k (List.range n)

/-- `cardCombos`: all five-card subsets (or the single shorter subset). -/
def cardCombos (cards : List Card) : List (List Card) :=
  let l := if cards.length < 5 then cards.length else 5
  (Combinations cards.length l).map (fun combo =>
    combo.map (fun i => cards.getD i default))

/-- The positional comparison loop of `CompareTo` over indices 0 .. 4;
reading past the end of either card list is a Go panic (`none`). -/
def compareGo (hc oc : List Card) : Nat → Nat → Option Int
  | 0, _ => some 0
  | Nat.succ fuel, i =>
    match hc.get? i, oc.get? i with
    | some a, some b =>
      if a.rank = b.rank then compareGo hc oc fuel (i + 1)
      else some (a.rank.val - b.rank.val)
    | _, _ => none

/-- `Hand.CompareTo`: tier difference first, then positional rank values. -/
def Hand.CompareTo (h o : Hand) : Option Int :=
  if h.ranking ≠ o.ranking then some (h.ranking - o.ranking)
  else compareGo h.cards o.cards 5 0

/-- The `byHighHand.Less` comparison used by `Sort`; within `New` it is
only ever applied to hands with five-card arrangements, where `CompareTo`
cannot panic, so the `getD` default is never observed there. -/
def lessHand (a b : Hand) : Bool :=
  decide ((a.CompareTo b).getD 0 < 0)

/-- Stable ascending insertion by a Boolean strict comparison. -/
def insertAscBy (lt : α → α → Bool) (x : α) : List α → List α
  | [] => [x]
  | y :: ys => if lt x y then x :: y :: ys else y :: insertAscBy lt x ys

/-- Ascending insertion sort by a Boolean strict comparison. -/
def sortAscBy (lt : α → α → Bool) (l : List α) : List α :=
  l.foldr (insertAscBy lt) []

/-- `Sort`: ascending by `CompareTo` when `(order = ASC and sorting = high)`
or `(order = DESC and sorting = low)`, else descending (`sort.Reverse`). -/
def SortHands (s : Sorting) (o : Ordering) (hands : List Hand) : List Hand :=
  let high := (o == ASC && s == SortingHigh) || (o == DESC && s == SortingLow)
  if high then sortAscBy lessHand hands
  else sortAscBy (fun a b => lessHand b a) hands

/-- The classification loop of `New`: a panic on any subset aborts (Go
panics propagate out of `New`). -/
def classifyAll : List (List Card) → Config → Option (List Hand)
  | [], _ => some []
  | combo :: rest, c =>
    match handForFiveCards combo c, classifyAll rest c with
    | some h, some hs => some (h :: hs)
    | _, _ => none

/-- The body of `New` after the options have been folded into a `Config`:
classify every subset, sort descending for the configured sorting, take the
first hand and stamp the configuration on it.  `hands[0]` on an empty list
is a Go panic (`none`). -/
def newHand (cards : List Card) (c : Config) : Option Hand := do
  let combos := cardCombos cards
  let hands ← classifyAll combos c
  let h ← (SortHands c.sorting DESC hands).head?
  return { h with config := c }

/-- `New`: fold the option functions over the zero configuration, then
select the best hand. -/
def New (cards : List Card) (options : List (Config → Config)) : Option Hand :=
  newHand cards (options.foldl (fun c f => f c) {})

/-- The serialized form of `Config` (`configJSON`): the `gameType` field is
not part of the record. -/
structure configJSON where
  sorting : Sorting
  ignoreStraights : Bool
  ignoreFlushes : Bool
  aceIsLow : Bool
deriving DecidableEq, Repr

/-- `Config.MarshalJSON`. -/
def Config.marshal (c : Config) : configJSON :=
  ⟨c.sorting, c.ignoreStraights, c.ignoreFlushes, c.aceIsLow⟩

/-- `Config.UnmarshalJSON` into a fresh zero-valued `Config`: the four
serialized fields are copied and `gameType` keeps its zero value. -/
def Config.unmarshal (j : configJSON) : Config :=
  { sorting := j.sorting, ignoreStraights := j.ignoreStraights,
    ignoreFlushes := j.ignoreFlushes, aceIsLow := j.aceIsLow }

/-- The serialized form of `Hand` (`handJSON`); card tokens round-trip to
the same cards per the spec's card-token grammar, so cards are kept as
values. -/
structure handJSON where
  ranking : Ranking
  cards : List Card
  description : String
  config : configJSON
deriving DecidableEq, Repr

/-- `Hand.MarshalJSON`. -/
def Hand.marshal (h : Hand) : handJSON :=
  ⟨h.ranking, h.cards, h.description, h.config.marshal⟩

/-- `Hand.UnmarshalJSON`: re-run the selector on the decoded cards with an
option function copying the four decoded configuration fields. -/
def unmarshalHand (m : handJSON) : Option Hand :=
  let f : Config → Config := fun c =>
    let mc := Config.unmarshal m.config
    { c with sorting := mc.sorting, ignoreStraights := mc.ignoreStraights,
             ignoreFlushes := mc.ignoreFlushes, aceIsLow := mc.aceIsLow }
  New m.cards [f]

/-- Encode a hand and decode it again (the round trip of the spec). -/
def roundTripHand (h : Hand) : Option Hand :=
  unmarshalHand h.marshal

/-- Modelled from the spec's tie-break wording as amended: hands of equal
tier compare positionally by the fixed ace-high rank value; the first
differing position decides, equal arrangements give zero. -/
def tieBreak : List Card → List Card → Int
  | a :: as, b :: bs =>
    if a.rank = b.rank then tieBreak as bs else a.rank.val - b.rank.val
  | _, _ => 0

/-! Concrete inputs used by the claim-level evaluations. -/

/-- The wheel input of the spec: Ace of spades, Five of clubs, Four of
diamonds, Three of hearts, Two of spades. -/
def wheelCards : List Card :=
  [⟨.ace, .spades⟩, ⟨.five, .clubs⟩, ⟨.four, .diamonds⟩,
   ⟨.three, .hearts⟩, ⟨.two, .spades⟩]

/-- A nine-high straight flush in hearts. -/
def sfNineHighHearts : List Card :=
  [⟨.nine, .hearts⟩, ⟨.eight, .hearts⟩, ⟨.seven, .hearts⟩,
   ⟨.six, .hearts⟩, ⟨.five, .hearts⟩]

/-- A configuration with `ignoreStraights` set but `ignoreFlushes` clear,
expressible in the serialized configuration record. -/
def mismatchedFlagsConfig : Config :=
  { sorting := 1, ignoreStraights := true, ignoreFlushes := false,
    aceIsLow := false, gameType := .standard }

/-- The short-deck configuration produced by the `ShortDeck` option. -/
def sdConfig : Config := { gameType := .shortDeck }

/-- A short-deck flush (ace-high, spades). -/
def sdFlushCards : List Card :=
  [⟨.ace, .spades⟩, ⟨.king, .spades⟩, ⟨.nine, .spades⟩,
   ⟨.eight, .spades⟩, ⟨.six, .spades⟩]

/-- A short-deck full house, nines full of sixes. -/
def sdFullHouseCards : List Card :=
  [⟨.nine, .spades⟩, ⟨.nine, .clubs⟩, ⟨.nine, .diamonds⟩,
   ⟨.six, .spades⟩, ⟨.six, .hearts⟩]

/-- The hand the short-deck table assigns to `sdFlushCards`. -/
def sdFlushHand : Hand :=
  ⟨SDFlush, sdFlushCards, "flush ace high", sdConfig⟩

/-- The hand the short-deck table assigns to `sdFullHouseCards`. -/
def sdFullHouseHand : Hand :=
  ⟨SDFullHouse, sdFullHouseCards, "full house nines full of sixes", sdConfig⟩

/-- The ace-to-five low configuration (the `AceToFiveLow` option). -/
def aceToFiveConfig : Config :=
  { sorting := 2, ignoreStraights := true, ignoreFlushes := true,
    aceIsLow := true, gameType := .standard }

/-- Six-five-four-three with an Ace, arranged under the ace-low ordering. -/
def lowCardsA : List Card :=
  [⟨.six, .spades⟩, ⟨.five, .clubs⟩, ⟨.four, .diamonds⟩,
   ⟨.three, .hearts⟩, ⟨.ace, .spades⟩]

/-- Six-five-four-three-two, arranged under the ace-low ordering. -/
def lowCardsB : List Card :=
  [⟨.six, .diamonds⟩, ⟨.five, .hearts⟩, ⟨.four, .spades⟩,
   ⟨.three, .diamonds⟩, ⟨.two, .clubs⟩]

/-- The ace-to-five classification of `lowCardsA`. -/
def lowHandA : Hand := ⟨StdHighCard, lowCardsA, "high card six high", aceToFiveConfig⟩

/-- The ace-to-five classification of `lowCardsB`. -/
def lowHandB : Hand := ⟨StdHighCard, lowCardsB, "high card six high", aceToFiveConfig⟩

/-- A royal flush in spades under the default configuration. -/
def rfCards : List Card :=
  [⟨.ace, .spades⟩, ⟨.king, .spades⟩, ⟨.queen, .spades⟩,
   ⟨.jack, .spades⟩, ⟨.ten, .spades⟩]

/-- The classified royal flush. -/
def rfHand : Hand := ⟨StdRoyalFlush, rfCards, "royal flush", {}⟩

/-- A three-card input holding a pair of aces. -/
def threeCards : List Card :=
  [⟨.ace, .spades⟩, ⟨.ace, .hearts⟩, ⟨.king, .diamonds⟩]

/-- The classification of the three-card input. -/
def threePairHand : Hand :=
  ⟨StdPair, threeCards, "pair of aces", {}⟩

/-- A six-card input: the spade royal flush plus a deuce. -/
def sixCards : List Card :=
  [⟨.ace, .spades⟩, ⟨.king, .spades⟩, ⟨.queen, .spades⟩,
   ⟨.jack, .spades⟩, ⟨.ten, .spades⟩, ⟨.two, .clubs⟩]

/-- The C5 selector property for a card list and configuration: the
enumeration covers exactly the binomial number of five-card subsets
(each one a five-card sub-selection without repetition), and the selected
hand is extremal under `CompareTo` among all classified subsets —
maximal for high sorting, minimal for low sorting. -/
def selectorClaim (cards : List Card) (c : Config) : Prop :=
  (cardCombos cards).length = Nat.choose cards.length 5 ∧
  (∀ combo ∈ cardCombos cards, combo.length = 5 ∧ combo.Sublist cards) ∧
  (∀ h : Hand, newHand cards c = some h →
    (∃ combo ∈ cardCombos cards, handForFiveCards combo c = some h) ∧
    ∀ combo ∈ cardCombos cards, ∀ h' : Hand, handForFiveCards combo c = some h' →
      (c.sorting = SortingHigh → ∃ v : Int, h.CompareTo h' = some v ∧ 0 ≤ v) ∧
      (c.sorting = SortingLow → ∃ v : Int, h.CompareTo h' = some v ∧ v ≤ 0))

/-! General lemmas. -/

/-- A list of length five is five conses. -/
lemma exists_five_of_length_eq {α : Type} :
    ∀ l : List α, l.length = 5 → ∃ a b c d e, l = [a, b, c, d, e] := by
  intro l h
  match l, h with
  | [a, b, c, d, e], _ => exact ⟨a, b, c, d, e, rfl⟩

/-- The comparison loop agrees with the positional tie-break on five-card
lists. -/
lemma compareGo_eq_tieBreak (a0 a1 a2 a3 a4 b0 b1 b2 b3 b4 : Card) :
    compareGo [a0, a1, a2, a3, a4] [b0, b1, b2, b3, b4] 5 0 =
      some (tieBreak [a0, a1, a2, a3, a4] [b0, b1, b2, b3, b4]) := by
  simp only [compareGo, tieBreak, List.get?]
  split_ifs <;> rfl

/-! Claim C1. -/

/-- C1: the exhaustiveness claim fails on the code.  With `ignoreStraights`
set and `ignoreFlushes` clear — a combination the serialized configuration
record can express and `Hand.UnmarshalJSON` feeds back into the selector —
the canonically arranged nine-high straight flush satisfies both the flush
and straight predicates, yet no rule of the standard table matches it: the
high-card rule demands no flush, the flush rule demands no straight, and
every straight-shaped rule is disabled.  `handForFiveCards` therefore
reaches its fatal branch (`none` models the `panic("unreachable")`). -/
theorem C1_no_rule_matches :
    hasFlush (formCards sfNineHighHearts mismatchedFlagsConfig) = true ∧
    hasStraight (formCards sfNineHighHearts mismatchedFlagsConfig) = true ∧
    handForFiveCards sfNineHighHearts mismatchedFlagsConfig = none := by
  refine ⟨by decide, by decide, by decide⟩

/-! Claim C3. -/

/-- C3 counterexample: in the short-deck constant block the full-house tier
(6) is below the flush tier (7), so the full house loses the comparison —
the claim's direction is reversed. -/
theorem C3_counterexample :
    (handForFiveCards sdFullHouseCards sdConfig).map Hand.ranking = some SDFullHouse ∧
    (handForFiveCards sdFlushCards sdConfig).map Hand.ranking = some SDFlush ∧
    ¬ SDFullHouse > SDFlush ∧
    ((handForFiveCards sdFullHouseCards sdConfig).bind (fun a =>
      (handForFiveCards sdFlushCards sdConfig).bind (fun b =>
        a.CompareTo b))) = some (-1) := by
  refine ⟨by decide, by decide, by decide, by decide⟩

/-- C3 (amended): under the short-deck table the FLUSH wins: the tier
assigned to a flush (7) is strictly greater than the tier assigned to a
full house (6), the reverse of the standard table where the full house (7)
beats the flush (6); any classified short-deck flush hand beats any
classified short-deck full-house hand under `CompareTo`. -/
theorem C3_flush_beats_full_house :
    (SDFullHouse < SDFlush ∧ StdFlush < StdFullHouse) ∧
    ∀ (c : Config) (cs₁ cs₂ : List Card) (a b : Hand),
      c.gameType = .shortDeck →
      handForFiveCards cs₁ c = some a → a.ranking = SDFlush →
      handForFiveCards cs₂ c = some b → b.ranking = SDFullHouse →
      a.CompareTo b = some 1 ∧ b.CompareTo a = some (-1) := by
  refine ⟨⟨by decide, by decide⟩, ?_⟩
  intro c cs₁ cs₂ a b _ _ ha _ hb
  unfold Hand.CompareTo
  rw [ha, hb]
  refine ⟨?_, ?_⟩ <;> rw [if_pos (by decide)] <;> rfl

/-- C3 witness: the general theorem applied to the concrete flush and full
house classified above. -/
theorem C3_witness :
    (sdConfig.gameType = GameType.shortDeck ∧
      handForFiveCards sdFlushCards sdConfig = some sdFlushHand ∧
      handForFiveCards sdFullHouseCards sdConfig = some sdFullHouseHand) ∧
    sdFlushHand.CompareTo sdFullHouseHand = some 1 ∧
    sdFullHouseHand.CompareTo sdFlushHand = some (-1) :=
  ⟨⟨rfl, by decide, by decide⟩,
    C3_flush_beats_full_house.2 sdConfig sdFlushCards sdFullHouseCards
      sdFlushHand sdFullHouseHand rfl (by decide) rfl (by decide) rfl⟩

/-! Claim C4. -/

/-- C4 counterexample: two equal-tier ace-to-five hands (`aceIsLow` set)
whose first difference is an Ace against a Two.  Under the ace-low ordinal
the Ace is smaller, so the claim demands a negative result; the code
compares by the fixed ace-high rank value and returns +12. -/
theorem C4_counterexample :
    aceToFiveConfig.aceIsLow = true ∧
    handForFiveCards lowCardsA aceToFiveConfig = some lowHandA ∧
    handForFiveCards lowCardsB aceToFiveConfig = some lowHandB ∧
    lowHandA.ranking = lowHandB.ranking ∧
    Rank.lowOrd .ace < Rank.lowOrd .two ∧
    lowHandA.CompareTo lowHandB = some 12 ∧ (0 : Int) < 12 := by
  refine ⟨rfl, by decide, by decide, rfl, by decide, by decide, by decide⟩

/-- C4 (amended): for equal-tier hands with five-card arrangements,
`CompareTo` compares positionally by the FIXED ace-high rank value —
regardless of `aceIsLow` — with the first differing position deciding and
equal rank sequences comparing equal, as computed by `tieBreak`. -/
theorem C4_positional_tiebreak :
    ∀ h o : Hand, h.ranking = o.ranking →
      h.cards.length = 5 → o.cards.length = 5 →
      h.CompareTo o = some (tieBreak h.cards o.cards) := by
  intro h o hr hl ol
  obtain ⟨a0, a1, a2, a3, a4, ha⟩ := exists_five_of_length_eq h.cards hl
  obtain ⟨b0, b1, b2, b3, b4, hb⟩ := exists_five_of_length_eq o.cards ol
  unfold Hand.CompareTo
  rw [if_neg (by simp [hr]), ha, hb]
  exact compareGo_eq_tieBreak a0 a1 a2 a3 a4 b0 b1 b2 b3 b4

/-- C4 witness: the amended theorem applied to the two concrete ace-to-five
hands. -/
theorem C4_witness :
    (lowHandA.ranking = lowHandB.ranking ∧
      lowHandA.cards.length = 5 ∧ lowHandB.cards.length = 5) ∧
    lowHandA.CompareTo lowHandB = some (tieBreak lowHandA.cards lowHandB.cards) :=
  ⟨⟨rfl, rfl, rfl⟩, C4_positional_tiebreak lowHandA lowHandB rfl rfl rfl⟩

/-! Claim C7. -/

/-- C7: a strictly greater tier always wins the comparison, whatever the
cards of either hand and whatever the configurations: `CompareTo` returns
the (positive) tier difference without ever reading the cards. -/
theorem C7_tier_monotonic :
    ∀ h o : Hand, o.ranking < h.ranking →
      h.CompareTo o = some (h.ranking - o.ranking) ∧ 0 < h.ranking - o.ranking := by
  intro h o hlt
  refine ⟨?_, Int.sub_pos.mpr hlt⟩
  unfold Hand.CompareTo
  rw [if_pos (ne_of_gt hlt)]

/-- C7 witness: a royal flush (tier 10) against a high card (tier 1). -/
theorem C7_witness :
    lowHandA.ranking < rfHand.ranking ∧
    (rfHand.CompareTo lowHandA = some (rfHand.ranking - lowHandA.ranking) ∧
      0 < rfHand.ranking - lowHandA.ranking) :=
  ⟨by decide, C7_tier_monotonic rfHand lowHandA (by decide)⟩

/-! Claim C8. -/

set_option maxHeartbeats 1000000 in
/-- C8: under the standard deck and the default configuration the wheel
input classifies as the straight tier with description "straight five high"
and the canonical arrangement Five, Four, Three, Two with the Ace rotated
to the last position. -/
theorem C8_wheel :
    New wheelCards [] =
      some ⟨StdStraight,
        [⟨.five, .clubs⟩, ⟨.four, .diamonds⟩, ⟨.three, .hearts⟩,
         ⟨.two, .spades⟩, ⟨.ace, .spades⟩],
        "straight five high", {}⟩ := by
  decide

/-! Claim C9. -/

/-- C9 counterexample: an empty card list is not rejected — the
combinatorial stage runs (producing the single empty combination) and `New`
ends in a runtime panic (`none`), not in an error reported to the caller
(the Go signature has no error result at all). -/
theorem C9_counterexample :
    cardCombos ([] : List Card) = [[]] ∧ New ([] : List Card) [] = none := by
  exact ⟨rfl, rfl⟩

/-- A flat map of the constantly empty function is empty. -/
lemma flatMap_const_nil {α β : Type} : ∀ l : List α, (l.flatMap fun _ => ([] : List β)) = [] := by
  intro l
  induction l with
  | nil => rfl
  | cons a l ih => simp [List.flatMap_cons, ih]

/-- Grouping an empty card list yields no cards. -/
lemma formGroups_nil (ranks : List Rank) : formGroups [] ranks = [] := by
  simp [formGroups, cardsForRank, flatMap_const_nil]

/-- The canonical arrangement of an empty card list is empty. -/
lemma formCards_nil (c : Config) : formCards [] c = [] := by
  cases hg : c.gameType <;>
    simp [formCards, hg, sortDescBy, formGroups_nil, formLowStraight, formLowSDStraight]

/-- Classifying an empty card list panics in the description generator of
the matching high-card rule (standard) or inside the short-deck straight
predicate. -/
lemma handForFiveCards_nil (c : Config) : handForFiveCards [] c = none := by
  simp only [handForFiveCards]
  rw [formCards_nil]
  rcases hiS : c.ignoreStraights <;> rcases hiF : c.ignoreFlushes <;>
    cases hg : c.gameType <;>
    simp [getRankingsByType, scanRules, stdHighCard, sdHighCard, NewRanking,
      hasPairs, hasPairsGo, cardsForRank, hasFlush, hasStraight, hasLowStraight,
      hasStraightInShortDeck, hasLowSDStraight, hiS, hiF]

/-- The selector aborts on an empty card list for every configuration. -/
lemma newHand_nil (c : Config) : newHand [] c = none := by
  have h3 : classifyAll (cardCombos []) c = none := by
    have hc : cardCombos ([] : List Card) = [[]] := rfl
    rw [hc]
    simp [classifyAll, handForFiveCards_nil]
  simp only [newHand]
  rw [h3]
  rfl

/-- C9 (amended): for every configuration, calling the selector with an
empty card list is not rejected before enumeration: `cardCombos` yields the
single empty combination, classification of the empty arrangement matches
the high-card rule and then panics generating the description, and the
whole call aborts (`none`) instead of returning an error value. -/
theorem C9_empty_input :
    ∀ c : Config, cardCombos ([] : List Card) = [[]] ∧ newHand [] c = none := by
  intro c
  exact ⟨rfl, newHand_nil c⟩

/-- C9 witness: the amended theorem at the zero configuration. -/
theorem C9_witness :
    cardCombos ([] : List Card) = [[]] ∧ newHand [] {} = none :=
  C9_empty_input {}

/-! Structure of the stable descending insertion: `insertDescBy` places the
new element in front of the first element with a key not larger. -/

/-- Splitting view of a descending insertion. -/
lemma insertDescBy_split {α : Type} (key : α → Nat) (x : α) (l : List α) :
    ∃ l₁ l₂, l = l₁ ++ l₂ ∧ insertDescBy key x l = l₁ ++ x :: l₂ ∧
      ∀ y ∈ l₁, key x < key y := by
  induction l with
  | nil => exact ⟨[], [], rfl, rfl, by simp⟩
  | cons y ys ih =>
    by_cases h : key x < key y
    · obtain ⟨l₁, l₂, he, hi, hgt⟩ := ih
      refine ⟨y :: l₁, l₂, by simp [he], ?_, ?_⟩
      · simp only [insertDescBy, if_pos h, hi, List.cons_append]
      · intro z hz
        rcases List.mem_cons.mp hz with hz | hz
        · exact hz ▸ h
        · exact hgt z hz
    · exact ⟨[], y :: ys, rfl, by simp [insertDescBy, if_neg h], by simp⟩

/-- Membership in a descending insertion. -/
lemma mem_insertDescBy {α : Type} (key : α → Nat) (x : α) (l : List α) (z : α) :
    z ∈ insertDescBy key x l ↔ z = x ∨ z ∈ l := by
  obtain ⟨l₁, l₂, he, hi, _⟩ := insertDescBy_split key x l
  subst he
  rw [hi]
  simp only [List.mem_append, List.mem_cons]
  tauto

/-- Length of a descending insertion. -/
lemma length_insertDescBy {α : Type} (key : α → Nat) (x : α) (l : List α) :
    (insertDescBy key x l).length = l.length + 1 := by
  obtain ⟨l₁, l₂, he, hi, _⟩ := insertDescBy_split key x l
  subst he
  rw [hi]
  simp
  omega

/-- Length is preserved by the descending sort. -/
lemma length_sortDescBy {α : Type} (key : α → Nat) (l : List α) :
    (sortDescBy key l).length = l.length := by
  induction l with
  | nil => rfl
  | cons x xs ih =>
    show (insertDescBy key x (sortDescBy key xs)).length = _
    rw [length_insertDescBy, ih]
    rfl

/-- Membership is preserved by the descending sort. -/
lemma mem_sortDescBy {α : Type} (key : α → Nat) (l : List α) (z : α) :
    z ∈ sortDescBy key l ↔ z ∈ l := by
  induction l with
  | nil => exact Iff.rfl
  | cons x xs ih =>
    show z ∈ insertDescBy key x (sortDescBy key xs) ↔ _
    rw [mem_insertDescBy, ih]
    simp

/-- Inserting preserves descending sortedness. -/
lemma pairwise_insertDescBy {α : Type} (key : α → Nat) (x : α) (l : List α)
    (hl : List.Pairwise (fun a b => key b ≤ key a) l) :
    List.Pairwise (fun a b => key b ≤ key a) (insertDescBy key x l) := by
  induction l with
  | nil => simp [insertDescBy]
  | cons y ys ih =>
    obtain ⟨hy, hys⟩ := List.pairwise_cons.mp hl
    by_cases h : key x < key y
    · simp only [insertDescBy, if_pos h]
      refine List.Pairwise.cons ?_ (ih hys)
      intro z hz
      rcases (mem_insertDescBy key x ys z).mp hz with hz | hz
      · exact hz ▸ Nat.le_of_lt h
      · exact hy z hz
    · simp only [insertDescBy, if_neg h]
      refine List.Pairwise.cons ?_ hl
      intro z hz
      rcases List.mem_cons.mp hz with hz | hz
      · exact hz ▸ Nat.le_of_not_lt h
      · exact Nat.le_trans (hy z hz) (Nat.le_of_not_lt h)

/-- The descending sort is sorted. -/
lemma pairwise_sortDescBy {α : Type} (key : α → Nat) (l : List α) :
    List.Pairwise (fun a b => key b ≤ key a) (sortDescBy key l) := by
  induction l with
  | nil => exact List.Pairwise.nil
  | cons x xs ih => exact pairwise_insertDescBy key x (sortDescBy key xs) ih

/-- Inserting a card preserves the per-rank filters (stability): every card
the insertion jumps over has a strictly larger key, hence a different rank
when keys are rank-determined. -/
lemma filter_insertDescBy (key : Card → Nat)
    (hcong : ∀ a b : Card, a.rank = b.rank → key a = key b)
    (r : Rank) (x : Card) (l : List Card) :
    (insertDescBy key x l).filter (fun c => c.rank == r) =
      (x :: l).filter (fun c => c.rank == r) := by
  obtain ⟨l₁, l₂, he, hi, hgt⟩ := insertDescBy_split key x l
  subst he
  rw [hi]
  by_cases hx : x.rank = r
  · have h₁ : l₁.filter (fun c => c.rank == r) = [] := by
      rw [List.filter_eq_nil_iff]
      intro a ha
      simp only [beq_iff_eq]
      intro hc
      exact absurd (hcong a x (by rw [hc, hx])) (Nat.ne_of_gt (hgt a ha))
    simp [List.filter_append, List.filter_cons, h₁, hx]
  · simp [List.filter_append, List.filter_cons, hx]

/-- The descending sort preserves the per-rank filters (stability). -/
lemma filter_sortDescBy (key : Card → Nat)
    (hcong : ∀ a b : Card, a.rank = b.rank → key a = key b)
    (r : Rank) (l : List Card) :
    (sortDescBy key l).filter (fun c => c.rank == r) =
      l.filter (fun c => c.rank == r) := by
  induction l with
  | nil => rfl
  | cons x xs ih =>
    show (insertDescBy key x (sortDescBy key xs)).filter _ = _
    rw [filter_insertDescBy key hcong r x (sortDescBy key xs),
      List.filter_cons, List.filter_cons, ih]

/-- Two descending-sorted card lists with rank-determined keys and equal
per-rank filters are equal. -/
lemma eq_of_sorted_of_filters (key : Card → Nat)
    (hcong : ∀ a b : Card, a.rank = b.rank → key a = key b)
    (hinj : ∀ a b : Card, key a = key b → a.rank = b.rank) :
    ∀ (l m : List Card),
      List.Pairwise (fun a b => key b ≤ key a) l →
      List.Pairwise (fun a b => key b ≤ key a) m →
      (∀ r : Rank, l.filter (fun c => c.rank == r) =
        m.filter (fun c => c.rank == r)) →
      l = m := by
  intro l
  induction l with
  | nil =>
    intro m _ _ hf
    cases m with
    | nil => rfl
    | cons b m' =>
      have h := hf b.rank
      rw [List.filter_nil, List.filter_cons, if_pos (by simp)] at h
      exact absurd h.symm (List.cons_ne_nil _ _)
  | cons a l' ih =>
    intro m hl hm hf
    cases m with
    | nil =>
      have h := hf a.rank
      rw [List.filter_nil, List.filter_cons, if_pos (by simp)] at h
      exact absurd h (List.cons_ne_nil _ _)
    | cons b m' =>
      obtain ⟨hal, hl'⟩ := List.pairwise_cons.mp hl
      obtain ⟨hbm, hm'⟩ := List.pairwise_cons.mp hm
      have hab : key a = key b := by
        rcases Nat.lt_trichotomy (key a) (key b) with h | h | h
        · exfalso
          have h2 : (a :: l').filter (fun c => c.rank == b.rank) = [] := by
            rw [List.filter_eq_nil_iff]
            intro z hz
            simp only [beq_iff_eq]
            intro hzr
            have hkey : key z = key b := hcong z b hzr
            have hle : key z ≤ key a := by
              rcases List.mem_cons.mp hz with hz | hz
              · exact hz ▸ Nat.le_refl _
              · exact hal z hz
            omega
          have h1 := hf b.rank
          rw [h2, List.filter_cons, if_pos (by simp)] at h1
          exact List.cons_ne_nil _ _ h1.symm
        · exact h
        · exfalso
          have h2 : (b :: m').filter (fun c => c.rank == a.rank) = [] := by
            rw [List.filter_eq_nil_iff]
            intro z hz
            simp only [beq_iff_eq]
            intro hzr
            have hkey : key z = key a := hcong z a hzr
            have hle : key z ≤ key b := by
              rcases List.mem_cons.mp hz with hz | hz
              · exact hz ▸ Nat.le_refl _
              · exact hbm z hz
            omega
          have h1 := hf a.rank
          rw [h2, List.filter_cons, if_pos (by simp)] at h1
          exact List.cons_ne_nil _ _ h1
      have hrank : a.rank = b.rank := hinj a b hab
      have h2 := hf a.rank
      rw [List.filter_cons, List.filter_cons, if_pos (by simp),
        if_pos (by simp [hrank])] at h2
      injection h2 with hhead htail
      subst hhead
      have htails : l' = m' := by
        refine ih m' hl' hm' ?_
        intro r
        by_cases hr : a.rank = r
        · subst hr
          exact htail
        · have h3 := hf r
          rw [List.filter_cons, List.filter_cons, if_neg (by simp [hr]),
            if_neg (by simp [hr])] at h3
          exact h3
      rw [htails]

/-- Equal per-rank filters give a permutation. -/
lemma perm_of_filters (l m : List Card)
    (hf : ∀ r : Rank, l.filter (fun c => c.rank == r) =
      m.filter (fun c => c.rank == r)) : l.Perm m := by
  rw [List.perm_iff_count]
  intro a
  calc List.count a l
      = List.count a (l.filter (fun c => c.rank == a.rank)) :=
        (List.count_filter (by simp)).symm
    _ = List.count a (m.filter (fun c => c.rank == a.rank)) := by rw [hf a.rank]
    _ = List.count a m := List.count_filter (by simp)

/-! The frequency-grouping stage preserves the per-rank filters. -/

/-- Every rank occurs exactly once in the sorted rank list. -/
lemma count_ranksDesc (aL : Bool) (r : Rank) :
    (sortDescBy (rankOrd aL) allRanks).count r = 1 := by
  cases aL <;> cases r <;> decide

/-- The active rank ordinal is injective. -/
lemma rankOrd_inj (aL : Bool) :
    ∀ r₁ r₂ : Rank, rankOrd aL r₁ = rankOrd aL r₂ → r₁ = r₂ := by
  cases aL <;> decide

/-- A rank's own filter fixes its card group. -/
lemma filter_cardsForRank_self (l : List Card) (r : Rank) :
    (cardsForRank l r).filter (fun c => c.rank == r) = cardsForRank l r := by
  rw [List.filter_eq_self]
  intro a ha
  exact (List.mem_filter.mp ha).2

/-- A different rank's filter empties a card group. -/
lemma filter_cardsForRank_ne (l : List Card) (r r₀ : Rank) (h : r ≠ r₀) :
    (cardsForRank l r).filter (fun c => c.rank == r₀) = [] := by
  rw [List.filter_eq_nil_iff]
  intro a ha
  have := (List.mem_filter.mp ha).2
  simp only [beq_iff_eq] at this ⊢
  rw [this]
  exact fun he => h he

/-- Flat-mapping a function that is empty away from `r₀` over a list
containing `r₀` exactly once yields the `r₀` value. -/
lemma flatMap_count_one (r₀ : Rank) (g : Rank → List Card)
    (hg : ∀ r, r ≠ r₀ → g r = []) :
    ∀ rs : List Rank, rs.count r₀ = 1 → rs.flatMap g = g r₀ := by
  intro rs
  induction rs with
  | nil => intro h; simp at h
  | cons r rs' ih =>
    intro h
    by_cases hr : r = r₀
    · subst hr
      rw [List.count_cons_self] at h
      have h0 : rs'.count r = 0 := by omega
      have hnil : rs'.flatMap g = [] := by
        rw [List.flatMap_eq_nil_iff]
        intro z hz
        exact hg z (fun he => (List.count_eq_zero.mp h0) (he ▸ hz))
      rw [List.flatMap_cons, hnil, List.append_nil]
    · rw [List.count_cons_of_ne (fun he => hr he.symm)] at h
      rw [List.flatMap_cons, hg r hr, List.nil_append]
      exact ih h

/-- The grouping stage preserves the filter of any rank whose multiplicity
is at most four (ranks of higher multiplicity are dropped by the loop). -/
lemma filter_formGroups (sorted : List Card) (ranks : List Rank) (r₀ : Rank)
    (hcount : ranks.count r₀ = 1)
    (hle : (cardsForRank sorted r₀).length ≤ 4) :
    (formGroups sorted ranks).filter (fun c => c.rank == r₀) =
      cardsForRank sorted r₀ := by
  unfold formGroups
  rw [List.filter_flatMap]
  have hinner : ∀ i : Nat,
      ranks.flatMap (fun r =>
        (if (cardsForRank sorted r).length = i then cardsForRank sorted r
          else []).filter (fun c => c.rank == r₀)) =
      (if (cardsForRank sorted r₀).length = i then cardsForRank sorted r₀
        else []) := by
    intro i
    have hgfun : ∀ r, r ≠ r₀ →
        (if (cardsForRank sorted r).length = i then cardsForRank sorted r
          else []).filter (fun c => c.rank == r₀) = [] := by
      intro r hr
      by_cases hc : (cardsForRank sorted r).length = i
      · rw [if_pos hc]
        exact filter_cardsForRank_ne sorted r r₀ hr
      · rw [if_neg hc]
        rfl
    have happ : ranks.flatMap (fun r =>
        (if (cardsForRank sorted r).length = i then cardsForRank sorted r
          else []).filter (fun c => c.rank == r₀)) =
        (if (cardsForRank sorted r₀).length = i then cardsForRank sorted r₀
          else []).filter (fun c => c.rank == r₀) :=
      flatMap_count_one r₀ _ hgfun ranks hcount
    rw [happ]
    by_cases hc : (cardsForRank sorted r₀).length = i
    · rw [if_pos hc]
      exact filter_cardsForRank_self sorted r₀
    · rw [if_neg hc]
      rfl
  simp only [List.filter_flatMap, hinner]
  have hc5 : (cardsForRank sorted r₀).length = 0 ∨
      (cardsForRank sorted r₀).length = 1 ∨ (cardsForRank sorted r₀).length = 2 ∨
      (cardsForRank sorted r₀).length = 3 ∨ (cardsForRank sorted r₀).length = 4 := by
    omega
  rcases hc5 with h | h | h | h | h
  · simp [List.flatMap_cons, List.flatMap_nil, h, List.length_eq_zero.mp h]
  · simp [List.flatMap_cons, List.flatMap_nil, h]
  · simp [List.flatMap_cons, List.flatMap_nil, h]
  · simp [List.flatMap_cons, List.flatMap_nil, h]
  · simp [List.flatMap_cons, List.flatMap_nil, h]

/-- The wheel rotation preserves per-rank filters (its five cards have
pairwise distinct, known ranks). -/
lemma filter_formLowStraight (l : List Card) (hlen : l.length ≤ 5) (r₀ : Rank) :
    (formLowStraight l).filter (fun c => c.rank == r₀) =
      l.filter (fun c => c.rank == r₀) := by
  match l, hlen with
  | [], _ => rfl
  | [c0], _ => rfl
  | [c0, c1], _ => rfl
  | [c0, c1, c2], _ => rfl
  | [c0, c1, c2, c3], _ => rfl
  | c0 :: c1 :: c2 :: c3 :: c4 :: rest, h =>
    have hrest : rest = [] := by
      simp only [List.length_cons] at h
      exact List.length_eq_zero.mp (by omega)
    subst hrest
    simp only [formLowStraight]
    split_ifs with hc
    · simp only [Bool.and_eq_true, beq_iff_eq] at hc
      obtain ⟨⟨⟨⟨h0, h1⟩, h2⟩, h3⟩, h4⟩ := hc
      cases r₀ <;> simp [List.filter_cons, h0, h1, h2, h3, h4]
    · rfl

/-- The short-deck rotation preserves per-rank filters. -/
lemma filter_formLowSDStraight (l : List Card) (hlen : l.length ≤ 5) (r₀ : Rank) :
    (formLowSDStraight l).filter (fun c => c.rank == r₀) =
      l.filter (fun c => c.rank == r₀) := by
  match l, hlen with
  | [], _ => rfl
  | [c0], _ => rfl
  | [c0, c1], _ => rfl
  | [c0, c1, c2], _ => rfl
  | [c0, c1, c2, c3], _ => rfl
  | c0 :: c1 :: c2 :: c3 :: c4 :: rest, h =>
    have hrest : rest = [] := by
      simp only [List.length_cons] at h
      exact List.length_eq_zero.mp (by omega)
    subst hrest
    simp only [formLowSDStraight]
    split_ifs with hc
    · simp only [Bool.and_eq_true, beq_iff_eq] at hc
      obtain ⟨⟨⟨⟨h0, h1⟩, h2⟩, h3⟩, h4⟩ := hc
      cases r₀ <;> simp [List.filter_cons, h0, h1, h2, h3, h4]
    · rfl

/-- The canonical arrangement preserves per-rank filters whenever no rank
has multiplicity above four and at most five cards are supplied. -/
lemma filter_formCards (cards : List Card) (c : Config)
    (hlen : cards.length ≤ 5)
    (hle : ∀ r : Rank, (cardsForRank cards r).length ≤ 4) :
    ∀ r₀ : Rank, (formCards cards c).filter (fun c => c.rank == r₀) =
      cards.filter (fun c => c.rank == r₀) := by
  intro r₀
  have hcong : ∀ a b : Card, a.rank = b.rank →
      rankOrd c.aceIsLow a.rank = rankOrd c.aceIsLow b.rank := by
    intro a b h
    rw [h]
  have hsortfil : ∀ r : Rank,
      (sortDescBy (fun card : Card => rankOrd c.aceIsLow card.rank) cards).filter
          (fun x => x.rank == r) =
        cards.filter (fun x => x.rank == r) :=
    fun r => filter_sortDescBy _ hcong r cards
  have hgf : ∀ r : Rank, (formGroups
      (sortDescBy (fun card : Card => rankOrd c.aceIsLow card.rank) cards)
      (sortDescBy (rankOrd c.aceIsLow) allRanks)).filter (fun x => x.rank == r) =
        cards.filter (fun x => x.rank == r) := by
    intro r
    rw [filter_formGroups _ _ r (count_ranksDesc c.aceIsLow r)
      (by show (List.filter _ _).length ≤ 4; rw [hsortfil r]; exact hle r)]
    show (List.filter _ _) = _
    rw [hsortfil r]
  have hglen : (formGroups
      (sortDescBy (fun card : Card => rankOrd c.aceIsLow card.rank) cards)
      (sortDescBy (rankOrd c.aceIsLow) allRanks)).length ≤ 5 := by
    have hperm := perm_of_filters _ cards (fun r => hgf r)
    rw [hperm.length_eq]
    exact hlen
  cases hg : c.gameType with
  | standard =>
    show (formCards cards c).filter _ = _
    simp only [formCards, hg]
    rw [filter_formLowStraight _ hglen r₀, hgf r₀]
  | shortDeck =>
    show (formCards cards c).filter _ = _
    simp only [formCards, hg]
    rw [filter_formLowSDStraight _ hglen r₀, hgf r₀]

/-- The canonical arrangement is a permutation of its input (same
hypotheses). -/
lemma formCards_perm (cards : List Card) (c : Config)
    (hlen : cards.length ≤ 5)
    (hle : ∀ r : Rank, (cardsForRank cards r).length ≤ 4) :
    (formCards cards c).Perm cards :=
  perm_of_filters _ _ (filter_formCards cards c hlen hle)

/-- Re-running the canonical arrangement on its own output changes
nothing: the second sort agrees with the first (sorted lists with equal
per-rank filters are equal), so the grouping and rotation repeat
verbatim. -/
theorem formCards_idem (cards : List Card) (c : Config)
    (hlen : cards.length ≤ 5)
    (hle : ∀ r : Rank, (cardsForRank cards r).length ≤ 4) :
    formCards (formCards cards c) c = formCards cards c := by
  have hcong : ∀ a b : Card, a.rank = b.rank →
      rankOrd c.aceIsLow a.rank = rankOrd c.aceIsLow b.rank := by
    intro a b h
    rw [h]
  have hinj : ∀ a b : Card,
      rankOrd c.aceIsLow a.rank = rankOrd c.aceIsLow b.rank → a.rank = b.rank :=
    fun a b h => rankOrd_inj c.aceIsLow _ _ h
  have hs2 : sortDescBy (fun card : Card => rankOrd c.aceIsLow card.rank)
      (formCards cards c) =
      sortDescBy (fun card : Card => rankOrd c.aceIsLow card.rank) cards := by
    apply eq_of_sorted_of_filters _ hcong hinj
    · exact pairwise_sortDescBy _ _
    · exact pairwise_sortDescBy _ _
    · intro r
      rw [filter_sortDescBy _ hcong r, filter_sortDescBy _ hcong r]
      exact filter_formCards cards c hlen hle r
  generalize hF : formCards cards c = F
  rw [hF] at hs2
  cases hg : c.gameType with
  | standard =>
    simp only [formCards, hg]
    rw [hs2, ← hF]
    simp only [formCards, hg]
  | shortDeck =>
    simp only [formCards, hg]
    rw [hs2, ← hF]
    simp only [formCards, hg]

/-! Inversion of the rule scan and of the selector. -/

/-- The rule scan on an empty arrangement aborts for every table: the
standard high-card rule matches but its description generator indexes an
empty list, and the short-deck straight test panics even earlier. -/
lemma scanRules_nil (c : Config) :
    scanRules [] c (getRankingsByType c.gameType) = none := by
  rcases hiS : c.ignoreStraights <;> rcases hiF : c.ignoreFlushes <;>
    cases hg : c.gameType <;>
    simp [getRankingsByType, scanRules, stdHighCard, sdHighCard, NewRanking,
      hasPairs, hasPairsGo, cardsForRank, hasFlush, hasStraight, hasLowStraight,
      hasStraightInShortDeck, hasLowSDStraight, hiS, hiF]

/-- What a successful rule scan guarantees: the hand carries the scanned
arrangement and the configuration, and some rule of the table validated it
and produced its description. -/
lemma scanRules_some (cards : List Card) (c : Config) :
    ∀ (rs : List ranking) (h : Hand), scanRules cards c rs = some h →
      h.cards = cards ∧ h.config = c ∧
      ∃ rule ∈ rs, rule.r = h.ranking ∧ rule.vFunc cards c = some true ∧
        rule.dFunc cards = some h.description := by
  intro rs
  induction rs with
  | nil =>
    intro h hr
    simp [scanRules] at hr
  | cons rule rest ih =>
    intro h hr
    simp only [scanRules] at hr
    cases hv : rule.vFunc cards c with
    | none => simp [hv] at hr
    | some b =>
      cases b with
      | false =>
        rw [hv] at hr
        obtain ⟨hc, hcfg, rule', hmem, hrest⟩ := ih h hr
        exact ⟨hc, hcfg, rule', List.mem_cons_of_mem _ hmem, hrest⟩
      | true =>
        rw [hv] at hr
        cases hd : rule.dFunc cards with
        | none => simp [hd] at hr
        | some d =>
          rw [hd] at hr
          injection hr with hh
          subst hh
          exact ⟨rfl, rfl, rule, List.mem_cons_self _ _, rfl, hv, hd⟩

/-- A successfully classified hand carries the canonical arrangement and
the configuration it was classified under. -/
lemma handForFiveCards_some_inv (combo : List Card) (c : Config) (h : Hand)
    (hh : handForFiveCards combo c = some h) :
    h.cards = formCards combo c ∧ h.config = c := by
  obtain ⟨h1, h2, _⟩ := scanRules_some _ c _ h hh
  exact ⟨h1, h2⟩

/-- Classification succeeds only when every rank multiplicity is at most
four: a five-of-a-rank subset is dropped whole by the grouping loop, and
the empty arrangement aborts the scan. -/
lemma counts_le_four_of_some (combo : List Card) (c : Config) (h : Hand)
    (hlen : combo.length ≤ 5)
    (hh : handForFiveCards combo c = some h) :
    ∀ r : Rank, (cardsForRank combo r).length ≤ 4 := by
  intro r
  by_contra hgt
  have hfl : (cardsForRank combo r).length ≤ combo.length :=
    List.length_filter_le _ _
  have h5 : (cardsForRank combo r).length = combo.length := by omega
  have hall : ∀ x ∈ combo, x.rank = r := by
    have := List.filter_length_eq_length.mp h5
    intro x hx
    exact beq_iff_eq.mp (this x hx)
  have hlen5 : combo.length = 5 := by omega
  have hsall : ∀ x ∈ sortDescBy
      (fun card : Card => rankOrd c.aceIsLow card.rank) combo, x.rank = r :=
    fun x hx => hall x ((mem_sortDescBy _ _ _).mp hx)
  have hcfr : ∀ r' : Rank, (cardsForRank (sortDescBy
      (fun card : Card => rankOrd c.aceIsLow card.rank) combo) r').length = 0 ∨
      (cardsForRank (sortDescBy
        (fun card : Card => rankOrd c.aceIsLow card.rank) combo) r').length = 5 := by
    intro r'
    by_cases hr : r' = r
    · subst hr
      right
      have hself : cardsForRank (sortDescBy
          (fun card : Card => rankOrd c.aceIsLow card.rank) combo) r' =
          sortDescBy (fun card : Card => rankOrd c.aceIsLow card.rank) combo := by
        rw [cardsForRank, List.filter_eq_self]
        intro a ha
        simp [hsall a ha]
      rw [hself, length_sortDescBy, hlen5]
    · left
      rw [List.length_eq_zero]
      rw [cardsForRank, List.filter_eq_nil_iff]
      intro a ha
      simp only [beq_iff_eq]
      rw [hsall a ha]
      exact fun he => hr he.symm
  have hformed : formCards combo c = [] := by
    have hgroups : formGroups (sortDescBy
        (fun card : Card => rankOrd c.aceIsLow card.rank) combo)
        (sortDescBy (rankOrd c.aceIsLow) allRanks) = [] := by
      rw [formGroups, List.flatMap_eq_nil_iff]
      intro i hi
      rw [List.flatMap_eq_nil_iff]
      intro r' _
      have hi' : i = 4 ∨ i = 3 ∨ i = 2 ∨ i = 1 := by
        simp only [List.mem_cons, List.not_mem_nil, or_false] at hi
        tauto
      have hne : (cardsForRank (sortDescBy
          (fun card : Card => rankOrd c.aceIsLow card.rank) combo) r').length ≠ i := by
        rcases hcfr r' with h0 | h0 <;> rw [h0] <;> omega
      rw [if_neg hne]
    cases hg : c.gameType <;> simp only [formCards, hg] <;> rw [hgroups] <;> rfl
  rw [handForFiveCards, hformed, scanRules_nil] at hh
  exact Option.noConfusion hh

/-- Re-classifying the arrangement of a classified hand reproduces it. -/
lemma handForFiveCards_idem (combo : List Card) (c : Config) (h : Hand)
    (hlen : combo.length ≤ 5)
    (hh : handForFiveCards combo c = some h) :
    handForFiveCards h.cards c = some h := by
  have hle := counts_le_four_of_some combo c h hlen hh
  have hcards : h.cards = formCards combo c :=
    (handForFiveCards_some_inv combo c h hh).1
  rw [handForFiveCards] at hh ⊢
  rw [hcards, formCards_idem combo c hlen hle]
  exact hh

/-! Structure of the candidate enumeration. -/

/-- Reading a list back at every index of its range reproduces it. -/
lemma map_getD_range {α : Type} [Inhabited α] :
    ∀ l : List α, (List.range l.length).map (fun i => l.getD i default) = l := by
  intro l
  induction l with
  | nil => rfl
  | cons a l ih =>
    rw [List.length_cons, List.range_succ_eq_map, List.map_cons, List.map_map]
    have hcomp : ((fun i => (a :: l).getD i default) ∘ Nat.succ) =
        fun i => l.getD i default := rfl
    rw [hcomp, ih]
    rfl

/-- Every enumerated subset is a sublist of the input of the requested
length. -/
lemma cardCombos_mem (cards combo : List Card) (h : combo ∈ cardCombos cards) :
    combo.Sublist cards ∧
      combo.length = (if cards.length < 5 then cards.length else 5) := by
  unfold cardCombos Combinations at h
  obtain ⟨idx, hidx, rfl⟩ := List.mem_map.mp h
  obtain ⟨hsub, hlenidx⟩ := List.mem_sublistsLen.mp hidx
  constructor
  · have hs := hsub.map (fun i => cards.getD i default)
    rwa [map_getD_range] at hs
  · rw [List.length_map, hlenidx]

/-- The number of enumerated subsets is the binomial coefficient. -/
lemma cardCombos_length (cards : List Card) :
    (cardCombos cards).length =
      Nat.choose cards.length (if cards.length < 5 then cards.length else 5) := by
  unfold cardCombos Combinations
  rw [List.length_map, List.length_sublistsLen, List.length_range]

/-- With at most five cards the enumeration is the single full subset. -/
lemma cardCombos_small (cards : List Card) (h : cards.length ≤ 5) :
    cardCombos cards = [cards] := by
  unfold cardCombos Combinations
  have hl : (if cards.length < 5 then cards.length else 5) = cards.length := by
    by_cases h5 : cards.length < 5
    · rw [if_pos h5]
    · rw [if_neg h5]
      omega
  rw [hl]
  have hone : List.sublistsLen cards.length (List.range cards.length) =
      [List.range cards.length] := by
    have hmem : List.range cards.length ∈
        List.sublistsLen cards.length (List.range cards.length) :=
      List.mem_sublistsLen.mpr ⟨List.Sublist.refl _, List.length_range _⟩
    have hlen1 : (List.sublistsLen cards.length (List.range cards.length)).length = 1 := by
      rw [List.length_sublistsLen, List.length_range, Nat.choose_self]
    obtain ⟨a, ha⟩ := List.length_eq_one.mp hlen1
    rw [ha] at hmem ⊢
    rw [List.mem_singleton.mp hmem]
  show List.map (fun combo => List.map (fun i => cards.getD i default) combo)
      (List.sublistsLen cards.length (List.range cards.length)) = [cards]
  rw [hone, List.map_cons, List.map_nil, map_getD_range]

/-! Membership lemmas for the ascending insertion sort used by `SortHands`. -/

/-- Membership in an ascending insertion. -/
lemma mem_insertAscBy {α : Type} (lt : α → α → Bool) (x : α) (l : List α) (z : α) :
    z ∈ insertAscBy lt x l ↔ z = x ∨ z ∈ l := by
  induction l with
  | nil => simp [insertAscBy]
  | cons y ys ih =>
    by_cases h : lt x y
    · simp [insertAscBy, if_pos h]
    · simp only [insertAscBy, if_neg h, List.mem_cons, ih]
      tauto

/-- Membership in the ascending sort. -/
lemma mem_sortAscBy {α : Type} (lt : α → α → Bool) (l : List α) (z : α) :
    z ∈ sortAscBy lt l ↔ z ∈ l := by
  induction l with
  | nil => exact Iff.rfl
  | cons x xs ih =>
    show z ∈ insertAscBy lt x (sortAscBy lt xs) ↔ _
    rw [mem_insertAscBy, ih]
    simp

/-- Membership in the batch sort. -/
lemma mem_SortHands (s : Sorting) (o : Ordering) (hands : List Hand) (z : Hand) :
    z ∈ SortHands s o hands ↔ z ∈ hands := by
  have hdef : SortHands s o hands =
      (if (o == ASC && s == SortingHigh || o == DESC && s == SortingLow) = true
        then sortAscBy lessHand hands
        else sortAscBy (fun a b => lessHand b a) hands) := rfl
  rw [hdef]
  split_ifs <;> exact mem_sortAscBy _ _ _

/-- Sorting a single hand changes nothing. -/
lemma SortHands_singleton (s : Sorting) (o : Ordering) (h : Hand) :
    SortHands s o [h] = [h] := by
  have hdef : SortHands s o [h] =
      (if (o == ASC && s == SortingHigh || o == DESC && s == SortingLow) = true
        then sortAscBy lessHand [h]
        else sortAscBy (fun a b => lessHand b a) [h]) := rfl
  rw [hdef]
  split_ifs <;> rfl

/-- A hand in a successful classification comes from some subset. -/
lemma classifyAll_mem :
    ∀ (combos : List (List Card)) (c : Config) (hands : List Hand),
      classifyAll combos c = some hands →
      ∀ h ∈ hands, ∃ combo ∈ combos, handForFiveCards combo c = some h := by
  intro combos
  induction combos with
  | nil =>
    intro c hands hc h hh
    simp only [classifyAll] at hc
    injection hc with hc
    subst hc
    simp at hh
  | cons combo rest ih =>
    intro c hands hc h hh
    simp only [classifyAll] at hc
    cases h1 : handForFiveCards combo c with
    | none => rw [h1] at hc; exact Option.noConfusion hc
    | some h0 =>
      rw [h1] at hc
      cases h2 : classifyAll rest c with
      | none => rw [h2] at hc; exact Option.noConfusion hc
      | some hs =>
        rw [h2] at hc
        injection hc with hc
        subst hc
        rcases List.mem_cons.mp hh with hh | hh
        · exact ⟨combo, List.mem_cons_self _ _, hh ▸ h1⟩
        · obtain ⟨combo', hmem, hhand⟩ := ih c hs h2 h hh
          exact ⟨combo', List.mem_cons_of_mem _ hmem, hhand⟩

/-- Every subset of a successful classification is classified into the
result list. -/
lemma classifyAll_forall :
    ∀ (combos : List (List Card)) (c : Config) (hands : List Hand),
      classifyAll combos c = some hands →
      ∀ combo ∈ combos, ∃ h ∈ hands, handForFiveCards combo c = some h := by
  intro combos
  induction combos with
  | nil =>
    intro c hands _ combo hmem
    simp at hmem
  | cons combo0 rest ih =>
    intro c hands hc combo hmem
    simp only [classifyAll] at hc
    cases h1 : handForFiveCards combo0 c with
    | none => rw [h1] at hc; exact Option.noConfusion hc
    | some h0 =>
      rw [h1] at hc
      cases h2 : classifyAll rest c with
      | none => rw [h2] at hc; exact Option.noConfusion hc
      | some hs =>
        rw [h2] at hc
        injection hc with hc
        subst hc
        rcases List.mem_cons.mp hmem with hm | hm
        · exact ⟨h0, List.mem_cons_self _ _, hm ▸ h1⟩
        · obtain ⟨h', hmem', hhand'⟩ := ih c hs h2 combo hm
          exact ⟨h', List.mem_cons_of_mem _ hmem', hhand'⟩

/-- Replacing the configuration of a hand that already carries it is the
identity. -/
lemma hand_config_update (h : Hand) (c : Config) (hc : h.config = c) :
    ({ h with config := c } : Hand) = h := by
  obtain ⟨r0, c0, d0, g0⟩ := h
  simp only at hc
  rw [hc]

/-- What a successful selection guarantees: the returned hand carries the
configuration and is the classification of one of the enumerated subsets. -/
lemma newHand_some_inv (cards : List Card) (c : Config) (h : Hand)
    (hn : newHand cards c = some h) :
    h.config = c ∧ ∃ combo ∈ cardCombos cards, handForFiveCards combo c = some h := by
  rw [newHand] at hn
  cases hcl : classifyAll (cardCombos cards) c with
  | none => rw [hcl] at hn; exact Option.noConfusion hn
  | some hands =>
    rw [hcl] at hn
    have hn1 : ((SortHands c.sorting DESC hands).head?).bind
        (fun h₀ => some ({ h₀ with config := c } : Hand)) = some h := hn
    cases hd : (SortHands c.sorting DESC hands).head? with
    | none => rw [hd] at hn1; exact Option.noConfusion hn1
    | some h₀ =>
      rw [hd] at hn1
      have hn2 : some ({ h₀ with config := c } : Hand) = some h := hn1
      injection hn2 with hn2
      have hmem : h₀ ∈ hands :=
        (mem_SortHands _ _ _ _).mp (List.mem_of_mem_head? hd)
      obtain ⟨combo, hcombo, hhand⟩ := classifyAll_mem _ c hands hcl h₀ hmem
      have hcfg : h₀.config = c := (handForFiveCards_some_inv _ _ _ hhand).2
      rw [hand_config_update h₀ c hcfg] at hn2
      subst hn2
      exact ⟨hcfg, combo, hcombo, hhand⟩

/-! Claim C2. -/

/-- C2 counterexample: the serialized configuration omits `gameType`, so a
short-deck hand is re-evaluated under the standard table.  The short-deck
flush (tier 7) decodes to a standard flush (tier 6): the round trip does
not preserve the tier. -/
theorem C2_counterexample :
    New sdFlushCards [ShortDeck] = some sdFlushHand ∧
    (roundTripHand sdFlushHand).map Hand.ranking = some StdFlush ∧
    sdFlushHand.ranking = SDFlush ∧ StdFlush ≠ SDFlush := by
  refine ⟨by decide, by decide, rfl, by decide⟩

/-- C2 (amended): for every Hand produced by the selector under a
configuration whose `gameType` is standard, encoding to the structured
record and decoding back (which re-runs the selector on the decoded cards
and configuration; the record has no `gameType` field, so decoding always
yields the standard table) returns the identical hand — in particular an
equal tier, an equal canonical arrangement, and an equal description. -/
theorem C2_roundtrip_standard :
    ∀ (cards : List Card) (c : Config) (h : Hand),
      c.gameType = .standard → newHand cards c = some h →
      roundTripHand h = some h := by
  intro cards c h hg hn
  obtain ⟨hcfg, combo, hcombo, hhand⟩ := newHand_some_inv cards c h hn
  obtain ⟨hsub, hclen⟩ := cardCombos_mem cards combo hcombo
  have hlen5 : combo.length ≤ 5 := by
    rw [hclen]
    split_ifs <;> omega
  have hle := counts_le_four_of_some combo c h hlen5 hhand
  have hcards : h.cards = formCards combo c :=
    (handForFiveCards_some_inv combo c h hhand).1
  have hidem := handForFiveCards_idem combo c h hlen5 hhand
  have hhlen : h.cards.length ≤ 5 := by
    rw [hcards, (formCards_perm combo c hlen5 hle).length_eq]
    exact hlen5
  have hself : newHand h.cards c = some h := by
    rw [newHand, cardCombos_small h.cards hhlen]
    have hclassify : classifyAll [h.cards] c = some [h] := by
      simp [classifyAll, hidem]
    rw [hclassify]
    have hbind : ((SortHands c.sorting DESC [h]).head?).bind
        (fun h₀ => some ({ h₀ with config := c } : Hand)) = some h := by
      rw [SortHands_singleton]
      show some ({ h with config := c } : Hand) = some h
      rw [hand_config_update h c hcfg]
    exact hbind
  have hrt : roundTripHand h = newHand h.cards
      (Config.mk h.config.sorting h.config.ignoreStraights
        h.config.ignoreFlushes h.config.aceIsLow GameType.standard) := rfl
  have hcfg_eq : Config.mk h.config.sorting h.config.ignoreStraights
      h.config.ignoreFlushes h.config.aceIsLow GameType.standard = c := by
    rw [hcfg, ← hg]
  rw [hrt, hcfg_eq]
  exact hself

/-- C2 witness: the round trip of the classified royal flush, via the
amended theorem. -/
theorem C2_witness :
    (({} : Config).gameType = GameType.standard ∧
      newHand rfCards {} = some rfHand) ∧
    roundTripHand rfHand = some rfHand :=
  ⟨⟨rfl, by decide⟩,
    C2_roundtrip_standard rfCards {} rfHand rfl (by decide)⟩

/-! Ordering properties of the positional tie-break. -/

/-- The tie-break is antisymmetric. -/
lemma tieBreak_neg : ∀ u v : List Card, tieBreak u v = -tieBreak v u := by
  intro u
  induction u with
  | nil => intro v; cases v <;> simp [tieBreak]
  | cons a as ih =>
    intro v
    cases v with
    | nil => simp [tieBreak]
    | cons b bs =>
      simp only [tieBreak]
      by_cases h : a.rank = b.rank
      · rw [if_pos h, if_pos h.symm]
        exact ih bs
      · rw [if_neg h, if_neg (fun he => h he.symm)]
        omega

/-- The rank value is injective. -/
lemma rank_val_inj : ∀ r₁ r₂ : Rank, r₁.val = r₂.val → r₁ = r₂ := by decide

/-- The strict tie-break order is transitive. -/
lemma tieBreak_trans : ∀ u v w : List Card,
    tieBreak u v < 0 → tieBreak v w < 0 → tieBreak u w < 0 := by
  intro u
  induction u with
  | nil =>
    intro v w h1 _
    cases v <;> simp [tieBreak] at h1
  | cons a as ih =>
    intro v w h1 h2
    cases v with
    | nil => simp [tieBreak] at h1
    | cons b bs =>
      cases w with
      | nil => simp [tieBreak] at h2
      | cons cc cs =>
        simp only [tieBreak] at h1 h2 ⊢
        by_cases hab : a.rank = b.rank
        · rw [if_pos hab] at h1
          by_cases hbc : b.rank = cc.rank
          · rw [if_pos hbc] at h2
            rw [if_pos (hab.trans hbc)]
            exact ih bs cs h1 h2
          · rw [if_neg hbc] at h2
            have hac : a.rank ≠ cc.rank := fun he => hbc (by rw [← hab]; exact he)
            rw [if_neg hac]
            have hv : a.rank.val = b.rank.val := by rw [hab]
            omega
        · rw [if_neg hab] at h1
          by_cases hbc : b.rank = cc.rank
          · rw [if_pos hbc] at h2
            have hac : a.rank ≠ cc.rank := fun he => hab (by rw [he, ← hbc])
            rw [if_neg hac]
            have hv : b.rank.val = cc.rank.val := by rw [hbc]
            omega
          · rw [if_neg hbc] at h2
            have hvac : a.rank.val < cc.rank.val := by omega
            have hac : a.rank ≠ cc.rank := fun he => by rw [he] at hvac; omega
            rw [if_neg hac]
            omega

/-- `CompareTo` of equal-tier five-card hands is the positional tie-break
(helper shared by the claim-level theorems). -/
lemma compareTo_tieBreak (h o : Hand) (hr : h.ranking = o.ranking)
    (hl : h.cards.length = 5) (ol : o.cards.length = 5) :
    h.CompareTo o = some (tieBreak h.cards o.cards) := by
  obtain ⟨a0, a1, a2, a3, a4, ha⟩ := exists_five_of_length_eq h.cards hl
  obtain ⟨b0, b1, b2, b3, b4, hb⟩ := exists_five_of_length_eq o.cards ol
  unfold Hand.CompareTo
  rw [if_neg (by simp [hr]), ha, hb]
  exact compareGo_eq_tieBreak a0 a1 a2 a3 a4 b0 b1 b2 b3 b4

/-- `CompareTo` between five-card hands never panics. -/
lemma compareTo_total (a b : Hand)
    (ha : a.cards.length = 5) (hb : b.cards.length = 5) :
    ∃ v : Int, a.CompareTo b = some v := by
  by_cases hr : a.ranking = b.ranking
  · exact ⟨_, compareTo_tieBreak a b hr ha hb⟩
  · exact ⟨_, by unfold Hand.CompareTo; rw [if_pos hr]⟩

/-- The comparison loop is antisymmetric. -/
lemma compareGo_neg : ∀ (fuel i : Nat) (hc oc : List Card) (v : Int),
    compareGo hc oc fuel i = some v → compareGo oc hc fuel i = some (-v) := by
  intro fuel
  induction fuel with
  | zero =>
    intro i hc oc v h
    simp only [compareGo] at h ⊢
    injection h with h
    rw [← h]
    rfl
  | succ fuel ih =>
    intro i hc oc v h
    simp only [compareGo] at h ⊢
    cases h1 : hc.get? i with
    | none =>
      rw [h1] at h
      cases h2 : oc.get? i with
      | none => exact Option.noConfusion h
      | some b => rw [h2] at h; exact Option.noConfusion h
    | some a =>
      rw [h1] at h
      cases h2 : oc.get? i with
      | none => rw [h2] at h; exact Option.noConfusion h
      | some b =>
        rw [h2] at h
        have h' : (if a.rank = b.rank then compareGo hc oc fuel (i + 1)
            else some (a.rank.val - b.rank.val)) = some v := h
        show (if b.rank = a.rank then compareGo oc hc fuel (i + 1)
            else some (b.rank.val - a.rank.val)) = some (-v)
        by_cases hr : a.rank = b.rank
        · rw [if_pos hr] at h'
          rw [if_pos hr.symm]
          exact ih (i + 1) hc oc v h'
        · rw [if_neg hr] at h'
          rw [if_neg (fun he => hr he.symm)]
          injection h' with h'
          rw [← h']
          congr 1
          omega

/-- `CompareTo` is antisymmetric. -/
lemma compareTo_neg (a b : Hand) (v : Int) (h : a.CompareTo b = some v) :
    b.CompareTo a = some (-v) := by
  unfold Hand.CompareTo at h ⊢
  by_cases hr : a.ranking = b.ranking
  · rw [if_neg (fun hne => hne hr)] at h
    rw [if_neg (fun hne => hne hr.symm)]
    exact compareGo_neg 5 0 a.cards b.cards v h
  · rw [if_pos hr] at h
    rw [if_pos (fun he => hr he.symm)]
    injection h with h
    rw [← h]
    congr 1
    omega

/-- `lessHand` on five-card hands is the strict lexicographic order on
(tier, tie-break). -/
lemma lessHand_iff (a b : Hand)
    (ha : a.cards.length = 5) (hb : b.cards.length = 5) :
    lessHand a b = true ↔
      (a.ranking < b.ranking ∨
        (a.ranking = b.ranking ∧ tieBreak a.cards b.cards < 0)) := by
  unfold lessHand
  by_cases hr : a.ranking = b.ranking
  · rw [compareTo_tieBreak a b hr ha hb]
    simp [hr]
  · have hcv : a.CompareTo b = some (a.ranking - b.ranking) := by
      unfold Hand.CompareTo
      rw [if_pos hr]
    rw [hcv]
    simp only [Option.getD_some, decide_eq_true_eq]
    constructor
    · intro hlt
      exact Or.inl (sub_neg.mp hlt)
    · intro hor
      rcases hor with hlt | ⟨heq, _⟩
      · exact sub_neg.mpr hlt
      · exact absurd heq hr

/-- `lessHand` is asymmetric on five-card hands. -/
lemma lessHand_asymm (a b : Hand)
    (ha : a.cards.length = 5) (hb : b.cards.length = 5)
    (h : lessHand a b = true) : lessHand b a = false := by
  rcases (lessHand_iff a b ha hb).mp h with h1 | ⟨h1, h2⟩
  · rw [← Bool.not_eq_true]
    intro hba
    rcases (lessHand_iff b a hb ha).mp hba with h3 | ⟨h3, _⟩
    · exact absurd (h1.trans h3) (lt_irrefl _)
    · rw [h3] at h1
      exact lt_irrefl _ h1
  · rw [← Bool.not_eq_true]
    intro hba
    rcases (lessHand_iff b a hb ha).mp hba with h3 | ⟨h3, h4⟩
    · rw [h1] at h3
      exact lt_irrefl _ h3
    · rw [tieBreak_neg] at h4
      omega

/-- `lessHand` is transitive on five-card hands. -/
lemma lessHand_trans (a b c : Hand)
    (ha : a.cards.length = 5) (hb : b.cards.length = 5) (hc : c.cards.length = 5)
    (h1 : lessHand a b = true) (h2 : lessHand b c = true) :
    lessHand a c = true := by
  rcases (lessHand_iff a b ha hb).mp h1 with g1 | ⟨g1, g1t⟩ <;>
    rcases (lessHand_iff b c hb hc).mp h2 with g2 | ⟨g2, g2t⟩
  · exact (lessHand_iff a c ha hc).mpr (Or.inl (g1.trans g2))
  · exact (lessHand_iff a c ha hc).mpr (Or.inl (by rw [← g2]; exact g1))
  · exact (lessHand_iff a c ha hc).mpr (Or.inl (by rw [g1]; exact g2))
  · exact (lessHand_iff a c ha hc).mpr
      (Or.inr ⟨g1.trans g2, tieBreak_trans a.cards b.cards c.cards g1t g2t⟩)

/-! Head extremality of the ascending insertion sort, relative to a
predicate satisfied by the list elements. -/

/-- Insertion preserves sortedness of the comparison's complement. -/
lemma pairwise_insertAscBy {α : Type} (lt : α → α → Bool) (P : α → Prop)
    (htr : ∀ a b c, P a → P b → P c →
      lt a b = true → lt b c = true → lt a c = true)
    (has : ∀ a b, P a → P b → lt a b = true → lt b a = false) :
    ∀ (x : α) (l : List α), (∀ z ∈ x :: l, P z) →
      List.Pairwise (fun a b => lt b a = false) l →
      List.Pairwise (fun a b => lt b a = false) (insertAscBy lt x l) := by
  intro x l
  induction l with
  | nil =>
    intro _ _
    simp [insertAscBy]
  | cons y ys ih =>
    intro hP hl
    have hPx : P x := hP x (List.mem_cons_self _ _)
    have hPy : P y := hP y (List.mem_cons_of_mem _ (List.mem_cons_self _ _))
    obtain ⟨hy, hys⟩ := List.pairwise_cons.mp hl
    by_cases h : lt x y = true
    · simp only [insertAscBy, if_pos h]
      refine List.Pairwise.cons ?_ hl
      intro z hz
      rcases List.mem_cons.mp hz with hz | hz
      · exact hz ▸ has x y hPx hPy h
      · have hPz : P z := hP z (List.mem_cons_of_mem _ (List.mem_cons_of_mem _ hz))
        rw [← Bool.not_eq_true]
        intro hzx
        have := htr z x y hPz hPx hPy hzx h
        rw [hy z hz] at this
        exact Bool.noConfusion this
    · simp only [insertAscBy, if_neg h]
      refine List.Pairwise.cons ?_ ?_
      · intro z hz
        rcases (mem_insertAscBy lt x ys z).mp hz with hz | hz
        · rw [hz, ← Bool.not_eq_true]
          exact h
        · exact hy z hz
      · refine ih ?_ hys
        intro z hz
        rcases List.mem_cons.mp hz with hz | hz
        · exact hz ▸ hPx
        · exact hP z (List.mem_cons_of_mem _ (List.mem_cons_of_mem _ hz))

/-- The ascending sort is sorted in the complement order. -/
lemma pairwise_sortAscBy {α : Type} (lt : α → α → Bool) (P : α → Prop)
    (htr : ∀ a b c, P a → P b → P c →
      lt a b = true → lt b c = true → lt a c = true)
    (has : ∀ a b, P a → P b → lt a b = true → lt b a = false) :
    ∀ l : List α, (∀ z ∈ l, P z) →
      List.Pairwise (fun a b => lt b a = false) (sortAscBy lt l) := by
  intro l
  induction l with
  | nil =>
    intro _
    exact List.Pairwise.nil
  | cons x xs ih =>
    intro hP
    show List.Pairwise _ (insertAscBy lt x (sortAscBy lt xs))
    refine pairwise_insertAscBy lt P htr has x (sortAscBy lt xs) ?_
      (ih (fun z hz => hP z (List.mem_cons_of_mem _ hz)))
    intro z hz
    rcases List.mem_cons.mp hz with hz | hz
    · exact hz ▸ hP x (List.mem_cons_self _ _)
    · exact hP z (List.mem_cons_of_mem _ ((mem_sortAscBy lt xs z).mp hz))

/-- The head of the ascending sort is minimal: no list element is below
it. -/
lemma head_min_sortAscBy {α : Type} (lt : α → α → Bool) (P : α → Prop)
    (htr : ∀ a b c, P a → P b → P c →
      lt a b = true → lt b c = true → lt a c = true)
    (has : ∀ a b, P a → P b → lt a b = true → lt b a = false)
    (l : List α) (hP : ∀ z ∈ l, P z) (h : α)
    (hd : (sortAscBy lt l).head? = some h) :
    ∀ y ∈ l, lt y h = false := by
  intro y hy
  have hpw := pairwise_sortAscBy lt P htr has l hP
  cases hsl : sortAscBy lt l with
  | nil => rw [hsl] at hd; exact Option.noConfusion hd
  | cons h0 t =>
    rw [hsl] at hd hpw
    injection hd with hd
    subst hd
    obtain ⟨hh, _⟩ := List.pairwise_cons.mp hpw
    have hmem : y ∈ sortAscBy lt l := (mem_sortAscBy lt l y).mpr hy
    rw [hsl] at hmem
    rcases List.mem_cons.mp hmem with he | he
    · subst he
      by_cases hyy : lt y y = true
      · have hPy : P y := hP y hy
        have := has y y hPy hPy hyy
        exact this
      · rw [← Bool.not_eq_true]
        exact hyy
    · exact hh y he

/-- The arrangement of a classified hand has as many cards as its subset. -/
lemma handForFiveCards_cards_length (combo : List Card) (c : Config) (h : Hand)
    (hlen : combo.length ≤ 5) (hh : handForFiveCards combo c = some h) :
    h.cards.length = combo.length := by
  rw [(handForFiveCards_some_inv combo c h hh).1]
  exact (formCards_perm combo c hlen
    (counts_le_four_of_some combo c h hlen hh)).length_eq

/-- With descending output order, the batch sort is ascending exactly for
low sorting. -/
lemma SortHands_DESC (s : Sorting) (hands : List Hand) :
    SortHands s DESC hands =
      if (s == SortingLow) = true then sortAscBy lessHand hands
      else sortAscBy (fun a b => lessHand b a) hands := rfl

/-- The selected hand is the head of the descending sort of the
classified hands. -/
lemma newHand_head (cards : List Card) (c : Config) (h : Hand)
    (hn : newHand cards c = some h) :
    ∃ hands, classifyAll (cardCombos cards) c = some hands ∧
      (SortHands c.sorting DESC hands).head? = some h := by
  rw [newHand] at hn
  cases hcl : classifyAll (cardCombos cards) c with
  | none => rw [hcl] at hn; exact Option.noConfusion hn
  | some hands =>
    rw [hcl] at hn
    have hn1 : ((SortHands c.sorting DESC hands).head?).bind
        (fun h₀ => some ({ h₀ with config := c } : Hand)) = some h := hn
    cases hd : (SortHands c.sorting DESC hands).head? with
    | none => rw [hd] at hn1; exact Option.noConfusion hn1
    | some h₀ =>
      rw [hd] at hn1
      have hn2 : some ({ h₀ with config := c } : Hand) = some h := hn1
      injection hn2 with hn2
      have hmem : h₀ ∈ hands :=
        (mem_SortHands _ _ _ _).mp (List.mem_of_mem_head? hd)
      obtain ⟨combo, hcombo, hhand⟩ := classifyAll_mem _ c hands hcl h₀ hmem
      have hcfg : h₀.config = c := (handForFiveCards_some_inv _ _ _ hhand).2
      rw [hand_config_update h₀ c hcfg] at hn2
      subst hn2
      exact ⟨hands, rfl, hd⟩

/-! Claim C5. -/

/-- C5: from at least five cards the selector enumerates exactly
`C(n, 5)` candidate subsets — every five-card combination without
repetition — classifies each independently, and any returned hand is
extremal under `CompareTo` among all classified subsets: maximal when the
sorting is high, minimal when it is low. -/
theorem C5_selector_extremal :
    ∀ (cards : List Card) (c : Config), 5 ≤ cards.length →
      selectorClaim cards c := by
  intro cards c h5
  have hnotlt : ¬ cards.length < 5 := by omega
  refine ⟨?_, ?_, ?_⟩
  · rw [cardCombos_length, if_neg hnotlt]
  · intro combo hc
    obtain ⟨hsub, hlen⟩ := cardCombos_mem cards combo hc
    rw [if_neg hnotlt] at hlen
    exact ⟨hlen, hsub⟩
  · intro h hn
    obtain ⟨hcfg, combo₀, hcombo₀, hhand₀⟩ := newHand_some_inv cards c h hn
    refine ⟨⟨combo₀, hcombo₀, hhand₀⟩, ?_⟩
    obtain ⟨hands, hcl, hd⟩ := newHand_head cards c h hn
    have hlen5 : ∀ z ∈ hands, z.cards.length = 5 := by
      intro z hz
      obtain ⟨cz, hcz, hhz⟩ := classifyAll_mem _ c hands hcl z hz
      obtain ⟨_, hlz⟩ := cardCombos_mem cards cz hcz
      rw [if_neg hnotlt] at hlz
      rw [handForFiveCards_cards_length cz c z (by omega) hhz, hlz]
    have hh5 : h.cards.length = 5 :=
      hlen5 h ((mem_SortHands _ _ _ _).mp (List.mem_of_mem_head? hd))
    intro combo hcombo h' hhand
    obtain ⟨h'', hmem'', hhand''⟩ := classifyAll_forall _ c hands hcl combo hcombo
    have hh'eq : h'' = h' := by
      rw [hhand] at hhand''
      injection hhand'' with he
      exact he.symm
    subst hh'eq
    have hh'5 : h''.cards.length = 5 := hlen5 _ hmem''
    rw [SortHands_DESC] at hd
    by_cases hs : (c.sorting == SortingLow) = true
    · rw [if_pos hs] at hd
      have hmin := head_min_sortAscBy lessHand (fun z => z.cards.length = 5)
        (fun a b cc pa pb pc hab hbc => lessHand_trans a b cc pa pb pc hab hbc)
        (fun a b pa pb hab => lessHand_asymm a b pa pb hab)
        hands hlen5 h hd h'' hmem''
      obtain ⟨v, hv⟩ := compareTo_total h'' h hh'5 hh5
      have hv0 : 0 ≤ v := by
        unfold lessHand at hmin
        rw [hv] at hmin
        simp at hmin
        omega
      have hvc := compareTo_neg h'' h v hv
      have hlow : c.sorting = SortingLow := by simpa using hs
      refine ⟨?_, ?_⟩
      · intro hhigh
        exact absurd (hhigh.symm.trans hlow) (by decide)
      · intro _
        exact ⟨-v, hvc, by omega⟩
    · rw [if_neg hs] at hd
      have hmin := head_min_sortAscBy (fun a b => lessHand b a)
        (fun z => z.cards.length = 5)
        (fun a b cc pa pb pc hab hbc => lessHand_trans cc b a pc pb pa hbc hab)
        (fun a b pa pb hab => lessHand_asymm b a pb pa hab)
        hands hlen5 h hd h'' hmem''
      obtain ⟨v, hv⟩ := compareTo_total h h'' hh5 hh'5
      have hv0 : 0 ≤ v := by
        have hm : lessHand h h'' = false := hmin
        unfold lessHand at hm
        rw [hv] at hm
        simp at hm
        omega
      refine ⟨?_, ?_⟩
      · intro _
        exact ⟨v, hv, hv0⟩
      · intro hlow
        exact absurd (by simp [hlow]) hs

/-- C5 witness: the six-card input under high sorting. -/
theorem C5_witness :
    5 ≤ sixCards.length ∧ selectorClaim sixCards { sorting := SortingHigh } :=
  ⟨by decide, C5_selector_extremal sixCards { sorting := SortingHigh } (by decide)⟩

/-! Claim C10. -/

/-- The flush and straight predicates reject any list that is not exactly
five cards long. -/
lemma hasFlush_hasStraight_short (l : List Card) (hl : l.length ≠ 5) :
    hasFlush l = false ∧ hasStraight l = false := by
  constructor <;> simp [hasFlush, hasStraight, hl]

/-- The unguarded short-deck low-straight test never returns true on a
short list (it either mismatches early or panics reading past the end). -/
lemma hasLowSDStraight_short : ∀ l : List Card, l.length < 5 →
    hasLowSDStraight l ≠ some true := by
  intro l hl
  match l, hl with
  | [], _ => simp [hasLowSDStraight]
  | [c0], _ =>
    simp only [hasLowSDStraight, List.get?_cons_zero, List.get?_cons_succ,
      List.get?_nil]
    split_ifs <;> simp
  | [c0, c1], _ =>
    simp only [hasLowSDStraight, List.get?_cons_zero, List.get?_cons_succ,
      List.get?_nil]
    split_ifs <;> simp
  | [c0, c1, c2], _ =>
    simp only [hasLowSDStraight, List.get?_cons_zero, List.get?_cons_succ,
      List.get?_nil]
    split_ifs <;> simp
  | [c0, c1, c2, c3], _ =>
    simp only [hasLowSDStraight, List.get?_cons_zero, List.get?_cons_succ,
      List.get?_nil]
    split_ifs <;> simp

/-- The combined short-deck straight predicate never returns true on a
short list. -/
lemma hasStraightInShortDeck_short (l : List Card) (hl : l.length < 5) :
    hasStraightInShortDeck l ≠ some true := by
  unfold hasStraightInShortDeck
  rw [(hasFlush_hasStraight_short l (by omega)).2]
  simp only [Bool.false_eq_true, if_false]
  exact hasLowSDStraight_short l hl

/-- The pair-pattern loop on a short list ends at the first out-of-range
index and yields false whenever the pattern entry there is not one. -/
lemma hasPairsGo_short (l : List Card) (p : List Nat) (hl : l.length < 5)
    (hp : p.getD l.length 0 ≠ 1) :
    ∀ (fuel i : Nat), i + fuel = 5 → i ≤ l.length →
      hasPairsGo l p fuel i = false := by
  intro fuel
  induction fuel with
  | zero =>
    intro i hif hi
    exact absurd hi (by omega)
  | succ fuel ih =>
    intro i hif hi
    simp only [hasPairsGo]
    by_cases hle : l.length ≤ i
    · rw [if_pos hle]
      have hieq : i = l.length := by omega
      rw [hieq]
      exact beq_eq_false_iff_ne.mpr hp
    · rw [if_neg hle]
      by_cases hc : (p.getD i 0 == (cardsForRank l (l.getD i default).rank).length) = true
      · rw [if_pos hc]
        exact ih (i + 1) (by omega) (by omega)
      · rw [if_neg hc]

/-- The full-house pattern never matches fewer than five cards. -/
lemma hasPairs_fullhouse_short (l : List Card) (hl : l.length < 5) :
    hasPairs l [3, 3, 3, 2, 2] = false := by
  apply hasPairsGo_short l _ hl _ 5 0 rfl (by omega)
  have : l.length = 0 ∨ l.length = 1 ∨ l.length = 2 ∨ l.length = 3 ∨
      l.length = 4 := by omega
  rcases this with h | h | h | h | h <;> rw [h] <;> decide

/-- C10: the flush predicate and the straight predicate both return false
for every card list whose length is not exactly five, and consequently a
hand built from fewer than five cards is never classified as a straight,
flush, straight flush, or royal flush under any configuration: its tier
is high card, pair, two pair, three of a kind, or four of a kind. -/
theorem C10_short_hands :
    (∀ l : List Card, l.length ≠ 5 →
      hasFlush l = false ∧ hasStraight l = false) ∧
    (∀ (cards : List Card) (c : Config) (h : Hand), cards.length < 5 →
      handForFiveCards cards c = some h →
      h.ranking = StdHighCard ∨ h.ranking = StdPair ∨ h.ranking = StdTwoPair ∨
        h.ranking = StdThreeOfAKind ∨ h.ranking = StdFourOfAKind) := by
  refine ⟨fun l hl => hasFlush_hasStraight_short l hl, ?_⟩
  intro cards c h hlen hh
  have hcnt : ∀ r : Rank, (cardsForRank cards r).length ≤ 4 := by
    intro r
    have hf := List.length_filter_le (fun x => x.rank == r) cards
    show (List.filter (fun x => x.rank == r) cards).length ≤ 4
    omega
  have hflen : (formCards cards c).length = cards.length :=
    (formCards_perm cards c (by omega) hcnt).length_eq
  have hfne : (formCards cards c).length ≠ 5 := by omega
  have hflt : (formCards cards c).length < 5 := by omega
  have hflush : hasFlush (formCards cards c) = false :=
    (hasFlush_hasStraight_short _ hfne).1
  have hstraight : hasStraight (formCards cards c) = false :=
    (hasFlush_hasStraight_short _ hfne).2
  have hsd : hasStraightInShortDeck (formCards cards c) ≠ some true :=
    hasStraightInShortDeck_short _ hflt
  have hfh : hasPairs (formCards cards c) [3, 3, 3, 2, 2] = false :=
    hasPairs_fullhouse_short _ hflt
  rw [handForFiveCards] at hh
  obtain ⟨hcards, hcfg, rule, hmem, hr, hv, _⟩ := scanRules_some _ c _ h hh
  cases hg : c.gameType with
  | standard =>
    rw [hg] at hmem
    simp only [getRankingsByType, List.mem_cons, List.not_mem_nil, or_false] at hmem
    rcases hmem with rfl | rfl | rfl | rfl | rfl | rfl | rfl | rfl | rfl | rfl
    · exact Or.inl hr.symm
    · exact Or.inr (Or.inl hr.symm)
    · exact Or.inr (Or.inr (Or.inl hr.symm))
    · exact Or.inr (Or.inr (Or.inr (Or.inl hr.symm)))
    · exfalso
      simp [stdStraight, NewRanking, hstraight, hflush] at hv
    · exfalso
      simp [stdFlush, NewRanking, hstraight, hflush] at hv
    · exfalso
      simp [stdFullHouse, NewRanking, hfh] at hv
    · exact Or.inr (Or.inr (Or.inr (Or.inr hr.symm)))
    · exfalso
      simp only [stdStraightFlush, NewRanking] at hv
      by_cases hflags : (c.ignoreStraights || c.ignoreFlushes) = true
      · rw [if_pos hflags] at hv
        exact Bool.noConfusion (Option.some.inj hv)
      · rw [if_neg hflags] at hv
        cases hget : (formCards cards c).get? 0 with
        | none => rw [hget] at hv; simp at hv
        | some c0 => rw [hget] at hv; simp [hflush] at hv
    · exfalso
      simp only [stdRoyalFlush, NewRanking] at hv
      by_cases hflags : (c.ignoreStraights || c.ignoreFlushes) = true
      · rw [if_pos hflags] at hv
        exact Bool.noConfusion (Option.some.inj hv)
      · rw [if_neg hflags] at hv
        cases hget : (formCards cards c).get? 0 with
        | none => rw [hget] at hv; simp at hv
        | some c0 => rw [hget] at hv; simp [hflush] at hv
  | shortDeck =>
    rw [hg] at hmem
    simp only [getRankingsByType, List.mem_cons, List.not_mem_nil, or_false] at hmem
    rcases hmem with rfl | rfl | rfl | rfl | rfl | rfl | rfl | rfl | rfl | rfl
    · exact Or.inl hr.symm
    · exact Or.inr (Or.inl hr.symm)
    · exact Or.inr (Or.inr (Or.inl hr.symm))
    · exact Or.inr (Or.inr (Or.inr (Or.inl hr.symm)))
    · exfalso
      simp only [sdStraight, NewRanking] at hv
      by_cases hiS : c.ignoreStraights = true
      · rw [if_pos hiS] at hv
        exact Bool.noConfusion (Option.some.inj hv)
      · rw [if_neg hiS] at hv
        cases hsis : hasStraightInShortDeck (formCards cards c) with
        | none => rw [hsis] at hv; simp at hv
        | some s =>
          rw [hsis] at hv
          cases s with
          | true => exact hsd hsis
          | false => simp at hv
    · exfalso
      simp only [sdFlush, NewRanking] at hv
      by_cases hiF : c.ignoreFlushes = true
      · rw [if_pos hiF] at hv
        exact Bool.noConfusion (Option.some.inj hv)
      · rw [if_neg hiF] at hv
        cases hsis : hasStraightInShortDeck (formCards cards c) with
        | none => rw [hsis] at hv; simp at hv
        | some s => rw [hsis] at hv; simp [hflush] at hv
    · exfalso
      simp [sdFullHouse, NewRanking, hfh] at hv
    · exact Or.inr (Or.inr (Or.inr (Or.inr hr.symm)))
    · exfalso
      simp only [sdStraightFlush, NewRanking] at hv
      by_cases hflags : (c.ignoreStraights || c.ignoreFlushes) = true
      · rw [if_pos hflags] at hv
        exact Bool.noConfusion (Option.some.inj hv)
      · rw [if_neg hflags] at hv
        cases hsis : hasStraightInShortDeck (formCards cards c) with
        | none => rw [hsis] at hv; simp at hv
        | some s =>
          rw [hsis] at hv
          cases hget : (formCards cards c).get? 0 with
          | none => rw [hget] at hv; simp at hv
          | some c0 => rw [hget] at hv; simp [hflush] at hv
    · exfalso
      simp only [sdRoyalFlush, NewRanking] at hv
      by_cases hflags : (c.ignoreStraights || c.ignoreFlushes) = true
      · rw [if_pos hflags] at hv
        exact Bool.noConfusion (Option.some.inj hv)
      · rw [if_neg hflags] at hv
        cases hsis : hasStraightInShortDeck (formCards cards c) with
        | none => rw [hsis] at hv; simp at hv
        | some s =>
          rw [hsis] at hv
          cases hget : (formCards cards c).get? 0 with
          | none => rw [hget] at hv; simp at hv
          | some c0 => rw [hget] at hv; simp [hflush] at hv

/-- C10 witness: part one at a three-card list, part two at a classified
three-card pair of aces. -/
theorem C10_witness :
    ((threeCards.length ≠ 5 ∧
        hasFlush threeCards = false ∧ hasStraight threeCards = false) ∧
      (threeCards.length < 5 ∧
        handForFiveCards threeCards {} = some threePairHand)) ∧
    (threePairHand.ranking = StdHighCard ∨ threePairHand.ranking = StdPair ∨
      threePairHand.ranking = StdTwoPair ∨
      threePairHand.ranking = StdThreeOfAKind ∨
      threePairHand.ranking = StdFourOfAKind) :=
  ⟨⟨⟨by decide, C10_short_hands.1 threeCards (by decide)⟩,
    ⟨by decide, by decide⟩⟩,
    C10_short_hands.2 threeCards {} threePairHand (by decide) (by decide)⟩

end hand
